import Mathlib

/-!
Shallow embedding of the redbridge-council-rubbish-scraper Go service
(internal/scraper/scraper.go, internal/server, internal/calendar) used to
check the specification claims.

Modelling conventions:
* Go strings are modelled as lists of characters (`GoStr`).  Byte-level
  details of UTF-8 only differ from this model on non-ASCII input, which no
  claim depends on.
* A Go `time.Time` is modelled by its absolute instant in seconds since the
  Unix epoch (`Instant := Int`).  The whole program runs in one configured
  `*time.Location` (the scraper, server and calendar builder all load
  `cfg.Timezone`), so the location is passed explicitly where Go reads it
  from the value.  Sub-second precision is irrelevant to the program (all
  constructed times have zero nanoseconds).
* A `*time.Location` is modelled by a base UTC offset plus a sorted list of
  `(transition instant, new offset)` pairs, exactly the information
  `Location.lookup` returns in Go (offset together with the start and end of
  the zone interval containing the queried instant).
* The goquery document tree and CSS selector matching are the external
  collaborator of the spec ("Document Model").  A scraped document is
  therefore modelled by the query results the scraper code consumes: for each
  stream the presence of its container block, the harvested instruction
  list, the raw text of the first `.upcoming-dates` node, and the list of
  date-entry nodes with their raw day/month texts and `.asterisk-note`
  nodes.  All logic that scraper.go performs on top of those query results
  is translated faithfully.
-/

/-! ## Go strings -/

/-- A Go string, modelled as a list of characters. -/
abbrev GoStr := List Char

/-- Literal helper: turn a Lean string literal into a `GoStr`. -/
def gs (s : String) : GoStr := s.toList

/-- `unicode.IsSpace` restricted to the characters that occur in practice
(ASCII whitespace plus NEL and NBSP); used by `strings.Fields` and
`strings.TrimSpace`. -/
def isGoSpace (c : Char) : Bool :=
  c == ' ' || c == '\t' || c == '\n' || c == '\x0b' || c == '\x0c' ||
    c == '\r' || c == '\u0085' || c == ' '

/-- `strings.TrimSpace`: drop leading and trailing whitespace. -/
def trimSpace (s : GoStr) : GoStr :=
  ((s.dropWhile isGoSpace).reverse.dropWhile isGoSpace).reverse

/-- Scanner for `strings.Fields`: `cur` is the reversed word currently
being read. -/
def goFieldsAux (cur : GoStr) : GoStr → List GoStr
  | [] => if cur = [] then [] else [cur.reverse]
  | c :: rest =>
    if isGoSpace c then
      if cur = [] then goFieldsAux [] rest
      else cur.reverse :: goFieldsAux [] rest
    else goFieldsAux (c :: cur) rest

/-- `strings.Fields`: split around runs of whitespace; the resulting words
are non-empty and contain no whitespace. -/
def goFields (s : GoStr) : List GoStr := goFieldsAux [] s

/-- `strings.Join(words, " ")`. -/
def joinSpace : List GoStr → GoStr
  | [] => []
  | [w] => w
  | w :: rest => w ++ ' ' :: joinSpace rest

/-- `normalizeSpaces` from scraper.go: collapse all whitespace runs to single
spaces and trim the ends. -/
def normalizeSpaces (s : GoStr) : GoStr := joinSpace (goFields s)

/-- `strings.Contains(s, sub)`. -/
def goContains : GoStr → GoStr → Bool
  | s, sub =>
    if sub.isPrefixOf s then true
    else
      match s with
      | [] => false
      | _ :: t => goContains t sub

/-- Number of positions in `s` at which `sub` starts (occurrence count,
counting every start position). -/
def occCount : GoStr → GoStr → Nat
  | s, sub =>
    (if sub.isPrefixOf s then 1 else 0) +
      match s with
      | [] => 0
      | _ :: t => occCount t sub

/-- Lexicographic strict order on strings (Go `<` on strings, for ASCII). -/
def goStrLt : GoStr → GoStr → Bool
  | [], [] => false
  | [], _ :: _ => true
  | _ :: _, [] => false
  | a :: s, b :: t => if a = b then goStrLt s t else decide (a < b)

/-! ## Instants, locations and the civil calendar -/

/-- An absolute instant: seconds since the Unix epoch. -/
abbrev Instant := Int

/-- A time zone: the offset (seconds east of UTC) in force before the first
transition, and the sorted list of `(transition instant, new offset)`
pairs.  This is the data Go `Location.lookup` works from. -/
structure Location where
  base : Int
  trans : List (Int × Int)
deriving DecidableEq, Repr

/-- Zone lookup: returns the offset in force at instant `t` together with
the start and end of the zone interval containing `t` (`none` stands for
the infinite sentinel Go uses at either end). -/
def lookupZoneAux (start : Option Int) (off : Int) :
    List (Int × Int) → Int → Int × Option Int × Option Int
  | [], _ => (off, start, none)
  | (w, o) :: rest, t =>
    if t < w then (off, start, some w) else lookupZoneAux (some w) o rest t

def Location.lookupZone (loc : Location) (t : Int) : Int × Option Int × Option Int :=
  lookupZoneAux none loc.base loc.trans t

/-- The UTC offset in force at instant `t`. -/
def Location.offsetAt (loc : Location) (t : Int) : Int :=
  (loc.lookupZone t).1

/-- Gregorian leap year test (as in Go `isLeap`). -/
def isLeap (y : Int) : Bool :=
  y % 4 == 0 && (y % 100 != 0 || y % 400 == 0)

/-- Days in a month. -/
def daysInMonth (y m : Int) : Int :=
  if m = 2 then (if isLeap y then 29 else 28)
  else if m = 4 ∨ m = 6 ∨ m = 9 ∨ m = 11 then 30
  else 31

/-- Day number since 1970-01-01 of the civil date `(y, m, d)` (the standard
days-from-civil computation; Go's internal `Date`/`absDate` pair computes
the same bijection between day numbers and civil dates).  `/` on `Int` is
Euclidean division, which agrees with floor division for the positive
literal divisors used here. -/
def daysFromCivil (y m d : Int) : Int :=
  let y' := if m ≤ 2 then y - 1 else y
  let era := y' / 400
  let yoe := y' - era * 400
  let mp := (m + 9) % 12
  let doy := (153 * mp + 2) / 5 + d - 1
  let doe := yoe * 365 + yoe / 4 - yoe / 100 + doy
  era * 146097 + doe - 719468

/-- Civil date `(y, m, d)` of a day number: the standard Gregorian
400/100/4/1-year cascade on the March-based era, the same civil bijection
Go's internal `absDate` computes (the round-trip theorem below verifies it
against `daysFromCivil`). -/
def civilFromDays (z : Int) : Int × Int × Int :=
  let z' := z + 719468
  let era := z' / 146097
  let doe := z' - era * 146097
  let c := doe / 36524
  let c' := c - c / 4
  let r1 := doe - 36524 * c'
  let n4 := r1 / 1461
  let r2 := r1 - 1461 * n4
  let n1 := r2 / 365
  let n1' := n1 - n1 / 4
  let yoe := 100 * c' + 4 * n4 + n1'
  let y := yoe + era * 400
  let doy := r2 - 365 * n1'
  let mp := (5 * doy + 2) / 153
  let d := doy - (153 * mp + 2) / 5 + 1
  let m := mp + (if mp < 10 then 3 else -9)
  (if m ≤ 2 then y + 1 else y, m, d)

/-- `time.Date(y, m, d, hh, mm, ss, 0, loc)` for in-range fields, following
Go: build the pseudo-instant as if the wall clock were UTC, look up its
zone, and correct the offset when the naive UTC instant falls outside that
zone interval (this is what normalizes non-existent wall times at a DST
spring-forward). -/
def goDate (loc : Location) (y m d hh mm ss : Int) : Instant :=
  let unix0 := daysFromCivil y m d * 86400 + hh * 3600 + mm * 60 + ss
  let (offset, zstart, zend) := loc.lookupZone unix0
  if offset = 0 then unix0
  else
    let utc := unix0 - offset
    let bad :=
      (match zstart with | none => false | some s => decide (utc < s)) ||
      (match zend with | none => false | some e => decide (e ≤ utc))
    let offset' := if bad then loc.offsetAt utc else offset
    unix0 - offset'

/-- Local wall-clock seconds of instant `t` (Go computes all civil fields
from `t` plus the zone offset at `t`). -/
def localSecs (loc : Location) (t : Instant) : Int := t + loc.offsetAt t

/-- Local day number of instant `t`: the value that determines `Year()`,
`YearDay()`, `Month()`, `Day()` and the `"2006-01-02"` key. -/
def localDay (loc : Location) (t : Instant) : Int := localSecs loc t / 86400

/-- Local civil date of instant `t` (Go `t.Year(), t.Month(), t.Day()`). -/
def localDate (loc : Location) (t : Instant) : Int × Int × Int :=
  civilFromDays (localDay loc t)

/-- Local hour of instant `t` (Go `t.Hour()`). -/
def localHour (loc : Location) (t : Instant) : Int :=
  localSecs loc t % 86400 / 3600

/-- Local minute of instant `t` (Go `t.Minute()`). -/
def localMinute (loc : Location) (t : Instant) : Int :=
  localSecs loc t % 3600 / 60

/-- Local second of instant `t` (Go `t.Second()`). -/
def localSecond (loc : Location) (t : Instant) : Int :=
  localSecs loc t % 60

/-- The UTC location. -/
def utcLoc : Location := ⟨0, []⟩

/-- Europe/London across 2025: GMT, then BST (UTC+1) from 2025-03-30 01:00
UTC to 2025-10-26 01:00 UTC, then GMT again.  This is the fragment of the
IANA data relevant to the dates used below. -/
def london2025 : Location :=
  ⟨0, [(daysFromCivil 2025 3 30 * 86400 + 3600, 3600),
       (daysFromCivil 2025 10 26 * 86400 + 3600, 0)]⟩

/-! ## Parsing `"2 January 2006"` texts (Go `time.ParseInLocation`) -/

def isDig (c : Char) : Bool := '0' ≤ c && c ≤ '9'

def digitVal (c : Char) : Int := (c.toNat : Int) - 48

/-- Case-insensitive ASCII comparison of two characters, as Go
`time.match` does byte-wise (unequal bytes must both be letters after
folding). -/
def foldEqChar (a b : Char) : Bool :=
  a == b ||
    (let x := Char.ofNat (a.toNat ||| 32)
     let y := Char.ofNat (b.toNat ||| 32)
     x == y && 'a' ≤ x && x ≤ 'z')

def matchFold : GoStr → GoStr → Bool
  | [], [] => true
  | a :: s, b :: t => foldEqChar a b && matchFold s t
  | _, _ => false

/-- Strip a case-insensitively matching name from the front of `v`
(Go `time.lookup` over a name table). -/
def stripName (name v : GoStr) : Option GoStr :=
  if matchFold name (v.take name.length) && name.length ≤ v.length then
    some (v.drop name.length)
  else none

def longMonthNames : List GoStr :=
  [gs "January", gs "February", gs "March", gs "April", gs "May",
   gs "June", gs "July", gs "August", gs "September", gs "October",
   gs "November", gs "December"]

def lookupMonthAux (i : Int) : List GoStr → GoStr → Option (Int × GoStr)
  | [], _ => none
  | name :: rest, v =>
    match stripName name v with
    | some r => some (i, r)
    | none => lookupMonthAux (i + 1) rest v

def lookupMonth (v : GoStr) : Option (Int × GoStr) :=
  lookupMonthAux 1 longMonthNames v

/-- Parse a value against the fixed layout `"2 January 2006"`:
one- or two-digit day, a space, a full month name (ASCII
case-insensitive), a space, exactly four year digits, end of input;
finally the day-of-month range check Go `Parse` performs. -/
def goParseDMY (v : GoStr) : Option (Int × Int × Int) :=
  match v with
  | c1 :: rest =>
    if isDig c1 then
      let (day, rem) :=
        match rest with
        | c2 :: rest2 =>
          if isDig c2 then (10 * digitVal c1 + digitVal c2, rest2)
          else (digitVal c1, rest)
        | [] => (digitVal c1, ([] : GoStr))
      match rem with
      | ' ' :: rem1 =>
        match lookupMonth rem1 with
        | some (m, rem2) =>
          match rem2 with
          | ' ' :: y1 :: y2 :: y3 :: y4 :: rem3 =>
            if isDig y1 && isDig y2 && isDig y3 && isDig y4 && rem3 = [] then
              let y := 1000 * digitVal y1 + 100 * digitVal y2 +
                10 * digitVal y3 + digitVal y4
              if 1 ≤ day ∧ day ≤ daysInMonth y m then some (y, m, day)
              else none
            else none
          | _ => none
        | none => none
      | _ => none
    else none
  | [] => none

/-- `digitOnly.FindString`: leftmost maximal run of digits, empty if none. -/
def firstDigitRun (s : GoStr) : GoStr :=
  (s.dropWhile (fun c => !isDig c)).takeWhile isDig

/-- `(*Scraper).parseDate`: extract the digits of the day text, normalize
the month text, parse `"<digits> <monthClean>"` with the fixed layout in
the configured location, then re-stamp the parsed calendar date at the
configured start hour. -/
def parseDate (loc : Location) (startHour : Int) (dayText monthText : GoStr) :
    Option Instant :=
  let dayDigits := firstDigitRun dayText
  if dayDigits = [] then none
  else
    let monthClean := normalizeSpaces monthText
    if monthClean = [] then none
    else
      match goParseDMY (dayDigits ++ ' ' :: monthClean) with
      | none => none
      | some (y, m, d) =>
        let parsed := goDate loc y m d 0 0 0
        let pd := localDate loc parsed
        some (goDate loc pd.1 pd.2.1 pd.2.2 startHour 0 0)

/-! ## Scraper data model (internal/scraper/scraper.go) -/

/-- `Instruction`: a guidance line and its links (links already resolved to
absolute form by the extraction collaborator). -/
structure Instruction where
  text : GoStr
  links : List GoStr
deriving DecidableEq, Repr

/-- `Collection`: a single waste collection slot. -/
structure Collection where
  date : Instant
  type : GoStr
  instructions : List Instruction
  note : GoStr
deriving DecidableEq, Repr

/-- One `.asterisk-note` node inside a date entry: whether it matched the
day / month selectors of the block definition, its class attribute and its
text. -/
structure NoteNode where
  isDaySel : Bool
  isMonthSel : Bool
  classAttr : GoStr
  text : GoStr
deriving DecidableEq, Repr

/-- One date-entry node (`entrySelector` match): the raw texts of its day
and month sub-nodes and its asterisk-note nodes. -/
structure Entry where
  dayRaw : GoStr
  monthRaw : GoStr
  asteriskNotes : List NoteNode
deriving DecidableEq, Repr

/-- The query results for one stream's container block. -/
structure Block where
  present : Bool
  instructions : List Instruction
  noticeRaw : GoStr
  entries : List Entry
deriving DecidableEq, Repr

/-- A scraped document as the scraper consumes it: the outer schedule
container plus the four stream blocks. -/
structure Document where
  hasContainer : Bool
  refuse : Block
  recycle : Block
  garden : Block
  food : Block
deriving DecidableEq, Repr

/-- The four block definitions, identified by their position in the table
(the selectors themselves live in the externalized query layer). -/
inductive StreamId where
  | refuse
  | recycle
  | garden
  | food
deriving DecidableEq, Repr

/-- `wasteType` of each block definition. -/
def wasteTypeOf : StreamId → GoStr
  | .refuse => gs "Refuse"
  | .recycle => gs "Recycling"
  | .garden => gs "Garden Waste"
  | .food => gs "Food Waste"

def Document.blockOf (doc : Document) : StreamId → Block
  | .refuse => doc.refuse
  | .recycle => doc.recycle
  | .garden => doc.garden
  | .food => doc.food

/-- The fixed iteration order of the `defs` table. -/
def defsOrder : List StreamId := [.refuse, .recycle, .garden, .food]

/-- `extractNoteText`: join the texts of the asterisk-note nodes, skipping
nodes that are the day/month fields themselves (all block definitions have
non-empty day and month selectors) or whose class names contain
`collection-day` / `collection-month`, and skipping empty texts. -/
def extractNoteText (notes : List NoteNode) : GoStr :=
  joinSpace <| notes.filterMap fun n =>
    if n.isDaySel then none
    else if n.isMonthSel then none
    else if goContains n.classAttr (gs "collection-day") ||
        goContains n.classAttr (gs "collection-month") then none
    else
      let t := normalizeSpaces n.text
      if t = [] then none else some t

/-- `extractGardenNotice`: normalized text of the first upcoming-dates
node. -/
def extractGardenNotice (b : Block) : GoStr := normalizeSpaces b.noticeRaw

/-- `cloneInstructions` (the Go clone exists only to avoid slice aliasing;
as a value it is the identity, with nil for the empty list). -/
def cloneInstructions (values : List Instruction) : List Instruction := values

/-- `appendNote`: append `extra` to `existing` unless empty or already
contained. -/
def appendNote (existing extra : GoStr) : GoStr :=
  let existing' := trimSpace existing
  let extra' := trimSpace extra
  if extra' = [] then existing'
  else if existing' = [] then extra'
  else if goContains existing' extra' then existing'
  else existing' ++ '\n' :: extra'

/-- Update the element at index `i` (no-op when out of range). -/
def updateAt {α : Type} : List α → Nat → (α → α) → List α
  | [], _, _ => []
  | a :: t, 0, f => f a :: t
  | a :: t, n + 1, f => a :: updateAt t n f

/-- The dedup key Go builds as `Date.Format(RFC3339) + "|" + wasteType`.
RFC3339 text of a time in a fixed location determines and is determined by
the instant, so the key is modelled as the pair. -/
abbrev DedupKey := Instant × GoStr

/-- The accumulator of the `parseCollections` loops: the results slice and
the `seen` map (kept as the association list of key/index insertions). -/
structure ParseState where
  results : List Collection
  seen : List (DedupKey × Nat)
deriving DecidableEq, Repr

def lookupSeen (seen : List (DedupKey × Nat)) (k : DedupKey) : Option Nat :=
  match seen with
  | [] => none
  | (k', i) :: rest => if k' = k then some i else lookupSeen rest k

/-- The merge applied on a repeat sighting of a key: fill in a missing
note or missing instructions, never overwriting non-empty values. -/
def mergeEvent (note : GoStr) (instructions : List Instruction)
    (old : Collection) : Collection :=
  let old' := if note ≠ [] ∧ old.note = [] then { old with note := note } else old
  if instructions ≠ [] ∧ old'.instructions = [] then
    { old' with instructions := cloneInstructions instructions }
  else old'

/-- The body of the per-entry closure in `parseCollections`: trim the day
and month texts, parse the date, compute the entry note, then either merge
into the already-seen event with the same (date, type) key or append a new
event.  Returns the new state and whether a new event was added (the
`added` counter). -/
def processEntry (loc : Location) (startHour : Int) (wt : GoStr)
    (instructions : List Instruction) (st : ParseState) (e : Entry) :
    ParseState × Bool :=
  let dayText := trimSpace e.dayRaw
  let monthText := trimSpace e.monthRaw
  if dayText = [] ∨ monthText = [] then (st, false)
  else
    match parseDate loc startHour dayText monthText with
    | none => (st, false)
    | some date =>
      let note := extractNoteText e.asteriskNotes
      let key : DedupKey := (date, wt)
      match lookupSeen st.seen key with
      | some idx =>
        ({ st with results := updateAt st.results idx (mergeEvent note instructions) },
          false)
      | none =>
        ({ results := st.results ++
            [{ date := date, type := wt,
               instructions := cloneInstructions instructions, note := note }],
           seen := st.seen ++ [(key, st.results.length)] }, true)

/-- Process all entries of one block, counting how many events were added. -/
def processEntries (loc : Location) (startHour : Int) (wt : GoStr)
    (instructions : List Instruction) (st : ParseState) (entries : List Entry) :
    ParseState × Nat :=
  entries.foldl
    (fun (acc : ParseState × Nat) e =>
      let (st', added) := processEntry loc startHour wt instructions acc.1 e
      (st', if added then acc.2 + 1 else acc.2))
    (st, 0)

/-- Process one block definition: skip absent blocks, harvest instructions
and (for the garden stream) the notice, process the entries, and record the
garden pause notice when the garden block exists but produced no events. -/
def processBlock (loc : Location) (startHour : Int) (doc : Document)
    (acc : ParseState × GoStr) (sid : StreamId) : ParseState × GoStr :=
  let block := doc.blockOf sid
  if !block.present then acc
  else
    let blockNotice := if sid = .garden then extractGardenNotice block else []
    let (st', added) := processEntries loc startHour (wasteTypeOf sid)
      block.instructions acc.1 block.entries
    if sid = .garden ∧ added = 0 ∧ blockNotice ≠ [] then (st', blockNotice)
    else (st', acc.2)

/-- The first phase of `parseCollections`: iterate the block definition
table, producing the raw results and the captured garden pause notice. -/
def parsePhase1 (loc : Location) (startHour : Int) (doc : Document) :
    ParseState × GoStr :=
  defsOrder.foldl (processBlock loc startHour doc) (⟨[], []⟩, [])

/-- The second phase of `parseCollections`: append the garden notice to the
note of every non-garden event. -/
def applyGardenNotice (gardenNotice : GoStr) (results : List Collection) :
    List Collection :=
  if gardenNotice ≠ [] then
    results.map fun c =>
      if c.type = gs "Garden Waste" then c
      else { c with note := appendNote c.note gardenNotice }
  else results

/-- The error values of the scraper. -/
inductive ScrapeErr where
  | noCollections
deriving DecidableEq, Repr

/-- `(*Scraper).parseCollections` on an already-parsed document (goquery
parsing of in-memory bytes is the externalized Document Model): error when
the outer schedule container is missing, otherwise both phases. -/
def parseCollections (loc : Location) (startHour : Int) (doc : Document) :
    Except ScrapeErr (List Collection) :=
  if !doc.hasContainer then .error .noCollections
  else
    let (st, gardenNotice) := parsePhase1 loc startHour doc
    .ok (applyGardenNotice gardenNotice st.results)

/-- Date comparison used by the final `sort.Slice` (less = `Date.Before`).
The sort is modelled by a stable insertion sort with the matching weak
order: Go pdqsort runs plain insertion sort (stable) for slices of fewer
than 13 elements, and any stable sort with this order is extensionally
unique on them; for longer slices Go guarantees the order only up to
ties, so theorems invoke the model's tie order only under an explicit
length bound of 12. -/
def dateLe (a b : Collection) : Prop := a.date ≤ b.date

instance : DecidableRel dateLe := fun a b => Int.decLe a.date b.date

def sortCollections (l : List Collection) : List Collection :=
  l.insertionSort dateLe

/-- The post-fetch tail of `FetchCollections`: parse, fail with
`ErrNoCollections` on an empty result list, sort ascending by date. -/
def fetchPipeline (loc : Location) (startHour : Int) (doc : Document) :
    Except ScrapeErr (List Collection) :=
  match parseCollections loc startHour doc with
  | .error e => .error e
  | .ok collections =>
    if collections.length = 0 then .error .noCollections
    else .ok (sortCollections collections)

/-- Whether a date entry yields an event (or a merge): non-empty trimmed
day and month texts and a parseable date. -/
def entryValid (loc : Location) (startHour : Int) (e : Entry) : Bool :=
  trimSpace e.dayRaw ≠ [] && trimSpace e.monthRaw ≠ [] &&
    (parseDate loc startHour (trimSpace e.dayRaw) (trimSpace e.monthRaw)).isSome

/-- Total number of valid date entries over the present blocks. -/
def countValidEntries (loc : Location) (startHour : Int) (doc : Document) : Nat :=
  (defsOrder.map fun sid =>
    let b := doc.blockOf sid
    if b.present then (b.entries.filter (entryValid loc startHour)).length
    else 0).sum

/-! ## Session acquisition (`seedAddress`) -/

/-- The result of `seedAddress`: success, or an error wrapping
`ErrAddressSetup` (with the HTTP status appended when it was >= 400). -/
inductive SeedResult where
  | ok
  | errSetup (status : Option Int)
deriving DecidableEq, Repr

/-- `errors.Is(err, ErrAddressSetup)` on a `seedAddress` error value: both
error branches wrap `ErrAddressSetup`. -/
def isAddressSetupErr : SeedResult → Bool
  | .ok => false
  | .errSetup _ => true

/-- The name of the session cookie. -/
def sessionCookie : GoStr := gs "RedbridgeIV3LivePref"

/-- The cookie/status logic of `seedAddress` (lines 164-188 of scraper.go),
taking the names of the cookies in the response's Set-Cookie headers, the
names already in the jar for the request URL, and the response status. -/
def seedAddress (respCookies jarCookies : List GoStr) (status : Int) : SeedResult :=
  let hasCookie := respCookies.any (· == sessionCookie)
  let hasCookie := if !hasCookie then jarCookies.any (· == sessionCookie) else hasCookie
  if !hasCookie then
    if status ≥ 400 then .errSetup (some status) else .errSetup none
  else .ok

/-! ## Server day resolution (internal/server) -/

/-- `collectionDuration = time.Hour`, in seconds. -/
def collectionDuration : Int := 3600

/-- `sameDay`: Go compares `Year()` and `YearDay()` in `loc`; the pair
(year, day of year) determines and is determined by the local day number,
so this is local-day-number equality. -/
def sameDay (loc : Location) (a b : Instant) : Bool :=
  localDay loc a == localDay loc b

structure DaySummary where
  date : Instant
  types : List GoStr
deriving DecidableEq, Repr

/-- Go `contains` helper on the types list. -/
def containsStr (list : List GoStr) (value : GoStr) : Bool :=
  list.any (· == value)

def lookupKey (idx : List (Int × DaySummary)) (k : Int) : Option DaySummary :=
  match idx with
  | [] => none
  | (k', ds) :: rest => if k' = k then some ds else lookupKey rest k

def updateKey (idx : List (Int × DaySummary)) (k : Int)
    (f : DaySummary → DaySummary) : List (Int × DaySummary) :=
  match idx with
  | [] => []
  | (k', ds) :: rest =>
    if k' = k then (k', f ds) :: rest else (k', ds) :: updateKey rest k f

/-- One step of the grouping loop in `groupDays`: ensure a summary exists
for the collection's `"2006-01-02"` key (created with the collection's
date and no types, exactly as Go does) and append the collection's type if
not already present.  The key is modelled by the local day number, which
determines the formatted date string (and, for years 0-9999, the
lexicographic order of the key strings is the numeric order of the day
numbers). -/
def addToIndex (loc : Location) (idx : List (Int × DaySummary)) (c : Collection) :
    List (Int × DaySummary) :=
  let key := localDay loc c.date
  let idx1 :=
    if (lookupKey idx key).isSome then idx
    else idx ++ [(key, { date := c.date, types := [] })]
  updateKey idx1 key fun ds =>
    if containsStr ds.types c.type then ds
    else { ds with types := ds.types ++ [c.type] }

def keyLe (a b : Int × DaySummary) : Prop := a.1 ≤ b.1

instance : DecidableRel keyLe := fun a b => Int.decLe a.1 b.1

/-- `groupDays`: sort a copy of the collections by date, bucket them into
day summaries keyed by calendar date (preserving first-seen stream order),
then emit the summaries in ascending key order (`sort.Strings` on the
keys; the keys are distinct, so the sorted order is unique). -/
def groupDays (loc : Location) (collections : List Collection) :
    List DaySummary :=
  let cloned := sortCollections collections
  let idx := cloned.foldl (addToIndex loc) []
  (idx.insertionSort keyLe).map Prod.snd

/-- The loop condition of `today`: the summary is on `now`'s calendar date
and the one-hour collection window has not yet elapsed. -/
def todayCond (loc : Location) (now : Instant) (day : DaySummary) : Bool :=
  sameDay loc now day.date && now < day.date + collectionDuration

/-- `today`: the types of the first day summary on `now`'s calendar date
whose one-hour collection window has not yet elapsed. -/
def todayAux (loc : Location) (now : Instant) : List DaySummary → List GoStr
  | [] => []
  | day :: rest =>
    if todayCond loc now day then day.types
    else todayAux loc now rest

def today (loc : Location) (now : Instant) (collections : List Collection) :
    List GoStr :=
  todayAux loc now (groupDays loc collections)

/-- The first return condition of the `nextDay` loop:
`now.Before(day.Date.Add(collectionDuration)) || sameDay(now, day.Date, loc)
&& !now.After(day.Date.Add(collectionDuration))`. -/
def nextCond (loc : Location) (now : Instant) (day : DaySummary) : Bool :=
  now < day.date + collectionDuration ||
    (sameDay loc now day.date && !(day.date + collectionDuration < now))

/-- `nextDay`: the scanning loop, translated with both of its return
conditions (the second branch `if day.Date.After(now)` is subsumed by the
first condition, as proved below). -/
def nextDayAux (loc : Location) (now : Instant) :
    List DaySummary → Option DaySummary
  | [] => none
  | day :: rest =>
    if nextCond loc now day then some day
    else if now < day.date then some day
    else nextDayAux loc now rest

def nextDay (loc : Location) (now : Instant) (collections : List Collection) :
    Option DaySummary :=
  nextDayAux loc now (groupDays loc collections)

/-- `daysBetween`: truncate both instants to local midnight via
`time.Date(Year(), Month(), Day(), 0, 0, 0, 0, loc)`, subtract, and apply
`int(d.Hours() / 24)`.  The float64 value of `Hours()/24` is within 2^-50
relative error of `seconds/86400`, and the true quotient is either an
exact integer or at least 1/86400 away from one, so the Go conversion
`int(...)` (truncation toward zero) equals truncating integer division of
the second difference by 86400. -/
def localMidnight (loc : Location) (t : Instant) : Instant :=
  let d := localDate loc t
  goDate loc d.1 d.2.1 d.2.2 0 0 0

def daysBetween (loc : Location) (fromT toT : Instant) : Int :=
  Int.tdiv (localMidnight loc toT - localMidnight loc fromT) 86400

/-! ## Calendar event identifiers (internal/calendar) -/

/-- Go decimal formatting of a non-negative integer, zero-padded to
`width` digits (the year/month/day fields of `Format("20060102")` for the
supported year range 0-9999). -/
def padInt (width : Nat) (n : Int) : GoStr :=
  let digits := (Int.toNat n).repr.toList
  List.replicate (width - digits.length) '0' ++ digits

/-- `Date.Format("20060102")` of a collection date in the configured
location. -/
def formatYYYYMMDD (loc : Location) (t : Instant) : GoStr :=
  let d := localDate loc t
  padInt 4 d.1 ++ padInt 2 d.2.1 ++ padInt 2 d.2.2

def isSlugKeep (c : Char) : Bool := ('a' ≤ c && c ≤ 'z') || ('0' ≤ c && c ≤ '9')

/-- ASCII lower-casing (`strings.ToLower` restricted to ASCII; non-ASCII
characters are untouched, which only differs from Go on exotic stream
names no claim depends on). -/
def asciiLower (c : Char) : Char :=
  if 'A' ≤ c && c ≤ 'Z' then Char.ofNat (c.toNat + 32) else c

/-- Scanner for `slugRegex.ReplaceAllString(lower, "-")`: `inRun` records
whether the previous character belonged to a run already replaced. -/
def collapseAux (inRun : Bool) : GoStr → GoStr
  | [] => []
  | c :: rest =>
    if isSlugKeep c then c :: collapseAux false rest
    else if inRun then collapseAux true rest
    else '-' :: collapseAux true rest

/-- `slugRegex.ReplaceAllString(lower, "-")`: replace every maximal run of
characters outside the class a-z0-9 by a single dash. -/
def collapseRuns (s : GoStr) : GoStr := collapseAux false s

/-- `strings.Trim(lower, "-")`. -/
def trimDash (s : GoStr) : GoStr :=
  ((s.dropWhile (· == '-')).reverse.dropWhile (· == '-')).reverse

/-- `slug` from internal/calendar. -/
def slug (value : GoStr) : GoStr :=
  trimDash (collapseRuns (value.map asciiLower))

/-- `eventID`: the stable VEVENT UID of a collection. -/
def eventID (loc : Location) (c : Collection) : GoStr :=
  slug c.type ++ '-' :: (formatYYYYMMDD loc c.date ++ gs "@redbridge-ics")

/-! ## Concrete example data used by counterexamples and witnesses -/

/-- Day number of 2025-12-01. -/
def exDay : Int := daysFromCivil 2025 12 1

/-- A Refuse collection at 2025-12-01 06:00 UTC. -/
def exColRefuse : Collection := ⟨exDay * 86400 + 6 * 3600, gs "Refuse", [], []⟩

/-- A collection at 2025-12-01 23:30 UTC (the server helpers accept
arbitrary collection lists; the tests build them directly). -/
def exColLate : Collection := ⟨exDay * 86400 + 23 * 3600 + 1800, gs "Refuse", [], []⟩

/-- A date entry reading `"14 November 2025"`. -/
def exEntry : Entry := ⟨gs "14", gs "November 2025", []⟩

def exAbsentBlock : Block := ⟨false, [], [], []⟩

/-- Document with a refuse and a recycle block, one identical date entry
each. -/
def exDocTwoStreams : Document :=
  ⟨true, ⟨true, [], [], [exEntry]⟩, ⟨true, [], [], [exEntry]⟩,
    exAbsentBlock, exAbsentBlock⟩

/-- Refuse entry whose asterisk notes read `"PAUSED"` twice. -/
def exEntryPaused : Entry :=
  ⟨gs "14", gs "November 2025",
    [⟨false, false, [], gs "PAUSED"⟩, ⟨false, false, [], gs "PAUSED"⟩]⟩

/-- Document where the garden block exists with notice `"PAUSED"` but no
date entries, and the refuse block has one entry whose own note is
`"PAUSED PAUSED"`. -/
def exDocGardenPaused : Document :=
  ⟨true, ⟨true, [], [], [exEntryPaused]⟩, exAbsentBlock,
    ⟨true, [], gs "PAUSED", []⟩, exAbsentBlock⟩

/-- The instant 2025-11-14 06:00 UTC produced by parsing `exEntry`. -/
def exParsedDate : Int := daysFromCivil 2025 11 14 * 86400 + 6 * 3600

instance {ε α : Type} [DecidableEq ε] [DecidableEq α] :
    DecidableEq (Except ε α) := fun a b =>
  match a, b with
  | .error e, .error f => decidable_of_iff (e = f) (by simp)
  | .ok x, .ok y => decidable_of_iff (x = y) (by simp)
  | .error _, .ok _ => .isFalse (by simp)
  | .ok _, .error _ => .isFalse (by simp)

/-! ## Derived definitions used by the proofs -/

/-- A wall-clock pseudo-instant `u0` resolves cleanly in `loc` when the
offset in force at the naive UTC instant `u0 - offsetAt u0` is
`offsetAt u0` itself.  This holds whenever the requested wall time exists
unambiguously (it fails inside a DST spring-forward gap). -/
def Location.resolves (loc : Location) (u0 : Int) : Prop :=
  loc.offsetAt (u0 - loc.offsetAt u0) = loc.offsetAt u0

instance (loc : Location) (u0 : Int) : Decidable (loc.resolves u0) :=
  Int.decEq _ _

/-- The invariant of the grouping index: every summary has a non-empty
type list and is stored under its own local-day key, and the keys are
distinct. -/
def IdxInv (loc : Location) (idx : List (Int × DaySummary)) : Prop :=
  (∀ p ∈ idx, p.2.types ≠ [] ∧ localDay loc p.2.date = p.1) ∧
  (idx.map Prod.fst).Nodup

instance : IsTotal Collection dateLe := ⟨fun a b => Int.le_total a.date b.date⟩

instance : IsTrans Collection dateLe := ⟨fun _ _ _ hab hbc => le_trans hab hbc⟩

/-- Every index recorded in `seen` points inside `results`. -/
def SeenInv (st : ParseState) : Prop :=
  ∀ p ∈ st.seen, p.2 < st.results.length

/-- The parse state after processing a list of entries (the `added`
counter does not influence the state). -/
def pState (loc : Location) (startHour : Int) (wt : GoStr)
    (instrs : List Instruction) (st : ParseState) (entries : List Entry) :
    ParseState :=
  entries.foldl (fun s e => (processEntry loc startHour wt instrs s e).1) st

/-- The number of valid entries of one block (0 when the block is absent);
`countValidEntries` is the sum of these over the table. -/
def blockCount (loc : Location) (startHour : Int) (doc : Document)
    (sid : StreamId) : Nat :=
  let b := doc.blockOf sid
  if b.present then (b.entries.filter (entryValid loc startHour)).length
  else 0

/-- The dedup key of a collection event. -/
def keyOf (c : Collection) : DedupKey := (c.date, c.type)

/-- The keys of the results slice mirror the `seen` map and are distinct. -/
def KeysInv (st : ParseState) : Prop :=
  st.results.map keyOf = st.seen.map Prod.fst ∧
  (st.seen.map Prod.fst).Nodup

/-- A string with no leading or trailing whitespace (both dropWhile passes
of `trimSpace` are the identity). -/
def ETrim (s : GoStr) : Prop :=
  s.dropWhile isGoSpace = s ∧ s.reverse.dropWhile isGoSpace = s.reverse

/-- The shape of every note string the scraper stores: trimmed at both ends
and free of newlines (notes are built by `normalizeSpaces`/`joinSpace`). -/
def GoodNote (s : GoStr) : Prop := ETrim s ∧ '\n' ∉ s

/-- Every stored result has a well-shaped note. -/
def NotesGood (st : ParseState) : Prop := ∀ c ∈ st.results, GoodNote c.note

/-- The step function of the `processEntries` fold (named for rewriting). -/
def entriesStep (loc : Location) (startHour : Int) (wt : GoStr)
    (instrs : List Instruction) (acc : ParseState × Nat) (e : Entry) :
    ParseState × Nat :=
  let (st', added) := processEntry loc startHour wt instrs acc.1 e
  (st', if added then acc.2 + 1 else acc.2)

/-! ## C1: session acquisition -/

/-- C1: `seedAddress` succeeds exactly when the session cookie
`RedbridgeIV3LivePref` is present among the response's Set-Cookie headers
or the already-held jar, independently of the HTTP status; when it is
absent the result is an error wrapping `ErrAddressSetup` whatever the
status (a non-error status alone is not success, and an error status is
tolerated whenever the cookie is present). -/
theorem seedAddress_cookie_criterion (resp jar : List GoStr) (status : Int) :
    (seedAddress resp jar status = .ok ↔
      sessionCookie ∈ resp ∨ sessionCookie ∈ jar) ∧
    isAddressSetupErr (seedAddress resp jar status) =
      !(resp.any (· == sessionCookie) || jar.any (· == sessionCookie)) := by
  have key : seedAddress resp jar status =
      (if resp.any (· == sessionCookie) || jar.any (· == sessionCookie) then .ok
       else if 400 ≤ status then .errSetup (some status) else .errSetup none) := by
    unfold seedAddress
    rcases resp.any (· == sessionCookie) <;>
      rcases jar.any (· == sessionCookie) <;> simp
  rw [key]
  rcases h : resp.any (· == sessionCookie) || jar.any (· == sessionCookie) with _ | _
  · have hm : ¬(sessionCookie ∈ resp ∨ sessionCookie ∈ jar) := by
      rcases Bool.or_eq_false_iff.mp h with ⟨h1, h2⟩
      simp only [List.any_eq_false, beq_iff_eq] at h1 h2
      rintro (hc | hc)
      · exact h1 _ hc rfl
      · exact h2 _ hc rfl
    simp only [h, Bool.false_eq_true, if_false, Bool.not_false]
    constructor
    · split <;> simp [hm]
    · split <;> simp [isAddressSetupErr]
  · have hm : sessionCookie ∈ resp ∨ sessionCookie ∈ jar := by
      rcases Bool.or_eq_true_iff.mp h with h1 | h1
      · rcases List.any_eq_true.mp h1 with ⟨x, hx, hbe⟩
        exact Or.inl (by rwa [(beq_iff_eq).mp hbe] at hx)
      · rcases List.any_eq_true.mp h1 with ⟨x, hx, hbe⟩
        exact Or.inr (by rwa [(beq_iff_eq).mp hbe] at hx)
    simp [hm, isAddressSetupErr]

/-! ## C3: daysBetween across a DST transition -/

/-- C3 (failing input): for the consecutive Europe/London calendar days
2025-03-30 and 2025-03-31 (10:00 local each), which straddle the
spring-forward transition, the two local midnights are 23 hours apart, so
`int(Hours()/24)` truncates to 0 even though the calendar-day difference
is 1. -/
theorem daysBetween_dst_gap_is_zero :
    daysBetween london2025 (goDate london2025 2025 3 30 10 0 0)
        (goDate london2025 2025 3 31 10 0 0) = 0 ∧
    localDay london2025 (goDate london2025 2025 3 31 10 0 0) -
        localDay london2025 (goDate london2025 2025 3 30 10 0 0) = 1 := by
  decide

/-! ## C2: the today window (counterexample) -/

/-- C2 counterexample: with a single collection at 2025-12-01 06:00 and
`now` = 2025-12-01 00:30, `today` returns a non-empty list although `now`
is inside no event's `[start, start + 1h)` window — the code gates only on
the calendar date and the upper end of the window. -/
theorem today_nonempty_before_window :
    today utcLoc (exDay * 86400 + 1800) [exColRefuse] = [gs "Refuse"] ∧
    ∀ c ∈ [exColRefuse],
      ¬(c.date ≤ exDay * 86400 + 1800 ∧
        exDay * 86400 + 1800 < c.date + 3600) := by
  decide

/-! ## C5: nextDay (counterexample) -/

/-- C5 counterexample: with a single collection at 2025-12-01 23:30 and
`now` = 2025-12-02 00:15 (inside the one-hour window), `nextDay` returns
the 2025-12-01 summary, a day strictly before `now`'s calendar date. -/
theorem nextDay_returns_earlier_calendar_day :
    nextDay utcLoc ((exDay + 1) * 86400 + 900) [exColLate] =
      some ⟨exColLate.date, [gs "Refuse"]⟩ ∧
    localDay utcLoc exColLate.date < localDay utcLoc ((exDay + 1) * 86400 + 900) := by
  decide

/-! ## C4: result ordering (counterexample) -/

/-- C4 counterexample: a document with one refuse and one recycle entry on
the same date yields the events in table-processing order
(Refuse before Recycling) even though the stream-name string order is the
opposite (`"Recycling" < "Refuse"`), so equal date-times are not in
stream-name string order. -/
theorem sort_ties_not_in_string_order :
    fetchPipeline utcLoc 6 exDocTwoStreams =
      .ok [⟨exParsedDate, gs "Refuse", [], []⟩,
           ⟨exParsedDate, gs "Recycling", [], []⟩] ∧
    goStrLt (gs "Recycling") (gs "Refuse") = true := by
  decide

/-! ## C7: garden notice propagation (counterexample) -/

/-- C7 counterexample: the garden block exists with notice `"PAUSED"` and
zero dated entries, so the notice pass runs; the refuse event's own note
already reads `"PAUSED PAUSED"`, the append is skipped, and the notice
occurs twice in the final note rather than exactly once. -/
theorem gardenNotice_can_occur_twice :
    exDocGardenPaused.garden.present = true ∧
    exDocGardenPaused.garden.entries = [] ∧
    extractGardenNotice exDocGardenPaused.garden = gs "PAUSED" ∧
    fetchPipeline utcLoc 6 exDocGardenPaused =
      .ok [⟨exParsedDate, gs "Refuse", [], gs "PAUSED PAUSED"⟩] ∧
    occCount (gs "PAUSED PAUSED") (gs "PAUSED") = 2 := by
  decide

/-! ## C9: parseDate and the configured start hour (counterexample) -/

/-- C9 counterexample: with configured start hour 1 in Europe/London, the
date texts `"30"` and `"March 2025"` parse, but 01:00 local does not exist
on 2025-03-30 (spring forward), so `time.Date` normalizes the event to
02:00 local: the produced hour is 2, not the configured start hour 1. -/
theorem parseDate_gap_hour_shifts :
    (parseDate london2025 1 (gs "30") (gs "March 2025")).map
      (localHour london2025) = some 2 ∧ (2 : Int) ≠ 1 := by
  decide

/-! ## Calendar round trip and clean resolution of wall times -/

set_option maxHeartbeats 2000000 in
/-- Converting a day number to its civil date and back is the identity:
`civilFromDays` and `daysFromCivil` implement the same Gregorian
bijection. -/
theorem daysFromCivil_civilFromDays (n : Int) :
    daysFromCivil (civilFromDays n).1 (civilFromDays n).2.1
      (civilFromDays n).2.2 = n := by
  simp only [civilFromDays, daysFromCivil]
  set era := (n + 719468) / 146097 with hera
  set doe := n + 719468 - era * 146097 with hdoe
  have hdoeb : 0 ≤ doe ∧ doe ≤ 146096 := by omega
  set c := doe / 36524 with hc
  have hcb : 0 ≤ c ∧ c ≤ 4 := by omega
  set c' := c - c / 4 with hc'
  have hc'b : 0 ≤ c' ∧ c' ≤ 3 := by omega
  set r1 := doe - 36524 * c' with hr1
  have hr1b : 0 ≤ r1 ∧ r1 ≤ 36524 := by omega
  set n4 := r1 / 1461 with hn4
  have hn4b : 0 ≤ n4 ∧ n4 ≤ 24 := by omega
  set r2 := r1 - 1461 * n4 with hr2
  have hr2b : 0 ≤ r2 ∧ r2 ≤ 1460 := by omega
  set n1 := r2 / 365 with hn1
  have hn1b : 0 ≤ n1 ∧ n1 ≤ 4 := by omega
  set n1' := n1 - n1 / 4 with hn1'
  have hn1'b : 0 ≤ n1' ∧ n1' ≤ 3 := by omega
  set doy := r2 - 365 * n1' with hdoy
  have hdoyb : 0 ≤ doy ∧ doy ≤ 365 := by omega
  set mp := (5 * doy + 2) / 153 with hmp
  have hmpb : 0 ≤ mp ∧ mp ≤ 11 := by omega
  have hyoeb : 0 ≤ 100 * c' + 4 * n4 + n1' ∧ 100 * c' + 4 * n4 + n1' ≤ 399 := by
    omega
  have hs4 : (100 * c' + 4 * n4 + n1') / 4 = 25 * c' + n4 := by omega
  have hs100 : (100 * c' + 4 * n4 + n1') / 100 = c' := by omega
  have hk : (100 * c' + 4 * n4 + n1' + era * 400) / 400 = era := by omega
  have hl : (100 * c' + 4 * n4 + n1' + era * 400 -
      (100 * c' + 4 * n4 + n1' + era * 400) / 400 * 400) / 4 = 25 * c' + n4 := by
    omega
  have hm : (100 * c' + 4 * n4 + n1' + era * 400 -
      (100 * c' + 4 * n4 + n1' + era * 400) / 400 * 400) / 100 = c' := by
    omega
  rcases lt_or_le mp 10 with h10 | h10
  · simp only [if_pos h10]
    have hle : ¬(mp + 3 ≤ 2) := by omega
    simp only [if_neg hle]
    have hmod : (mp + 3 + 9) % 12 = mp := by omega
    rw [hmod]
    omega
  · have h10' : ¬(mp < 10) := by omega
    simp only [if_neg h10']
    have hle : mp + -9 ≤ 2 := by omega
    simp only [if_pos hle]
    have hmod : (mp + -9 + 9) % 12 = mp := by omega
    rw [hmod]
    simp only [Int.add_sub_cancel]
    omega

/-- When the requested wall time resolves cleanly, `goDate` subtracts
exactly the offset in force and the produced instant reads the requested
wall clock. -/
theorem goDate_resolves (loc : Location) (y m d hh mm ss : Int)
    (h : loc.resolves (daysFromCivil y m d * 86400 + hh * 3600 + mm * 60 + ss)) :
    localSecs loc (goDate loc y m d hh mm ss) =
      daysFromCivil y m d * 86400 + hh * 3600 + mm * 60 + ss := by
  unfold Location.resolves at h
  rcases hz : loc.lookupZone (daysFromCivil y m d * 86400 + hh * 3600 + mm * 60 + ss)
    with ⟨off, zs, ze⟩
  have hoff :
      loc.offsetAt (daysFromCivil y m d * 86400 + hh * 3600 + mm * 60 + ss) = off := by
    rw [Location.offsetAt, hz]
  rw [hoff] at h
  unfold goDate localSecs
  simp only [hz]
  by_cases h0 : off = 0
  · rw [if_pos h0]
    rw [hoff, h0]
    omega
  · rw [if_neg h0]
    split_ifs with hbad
    · rw [h, h]
      omega
    · rw [h]
      omega

/-- C9 amended: whenever the date texts parse (`goParseDMY` succeeds on the
assembled `"<digits> <monthClean>"` string), the configured start hour is
in range, and both the parsed date's midnight and its start-hour wall time
resolve cleanly in the configured location (no DST gap), the produced
event instant falls on the parsed calendar day (as a day number) at
exactly startHour:00:00 local time.  In a spring-forward gap the hour is
normalized forward instead (see the counterexample). -/
theorem parseDate_start_hour_clock (loc : Location) (startHour : Int)
    (dayText monthText : GoStr) (t : Instant) (y m d : Int)
    (hp : parseDate loc startHour dayText monthText = some t)
    (hdmy : goParseDMY (firstDigitRun dayText ++ ' ' :: normalizeSpaces monthText) =
      some (y, m, d))
    (hSH0 : 0 ≤ startHour) (hSH23 : startHour ≤ 23)
    (hmid : loc.resolves (daysFromCivil y m d * 86400))
    (hev : loc.resolves (daysFromCivil y m d * 86400 + startHour * 3600)) :
    localDay loc t = daysFromCivil y m d ∧
    localHour loc t = startHour ∧
    localMinute loc t = 0 ∧ localSecond loc t = 0 := by
  unfold parseDate at hp
  by_cases hdd : firstDigitRun dayText = []
  · rw [hdd] at hdmy
    simp only [List.nil_append] at hdmy
    simp only [goParseDMY] at hdmy
    by_cases hmc : normalizeSpaces monthText = []
    · rw [hmc] at hdmy
      exact absurd hdmy (by simp)
    · rcases hne : normalizeSpaces monthText with _ | ⟨c0, rest0⟩
      · exact absurd hne hmc
      · rw [hne] at hdmy
        have : isDig ' ' = false := by decide
        simp [this] at hdmy
  · rw [if_neg hdd] at hp
    by_cases hmc : normalizeSpaces monthText = []
    · rw [hmc] at hdmy
      rw [if_pos hmc] at hp
      exact absurd hp (by simp)
    · rw [if_neg hmc] at hp
      rw [hdmy] at hp
      simp only [Option.some.injEq] at hp
      -- the first goDate call: midnight of the parsed date
      have h1 := goDate_resolves loc y m d 0 0 0 (by simpa using hmid)
      simp only [mul_zero, zero_mul, add_zero] at h1
      have hld : localDay loc (goDate loc y m d 0 0 0) = daysFromCivil y m d := by
        unfold localDay
        rw [h1]
        omega
      have hpd : localDate loc (goDate loc y m d 0 0 0) =
          civilFromDays (daysFromCivil y m d) := by
        unfold localDate
        rw [hld]
      rw [hpd] at hp
      -- the second goDate call at the start hour
      have hrt := daysFromCivil_civilFromDays (daysFromCivil y m d)
      have hev' : loc.resolves
          (daysFromCivil (civilFromDays (daysFromCivil y m d)).1
              (civilFromDays (daysFromCivil y m d)).2.1
              (civilFromDays (daysFromCivil y m d)).2.2 * 86400 +
            startHour * 3600 + 0 * 60 + 0) := by
        rw [hrt]
        simpa using hev
      have h2 := goDate_resolves loc
        (civilFromDays (daysFromCivil y m d)).1
        (civilFromDays (daysFromCivil y m d)).2.1
        (civilFromDays (daysFromCivil y m d)).2.2 startHour 0 0 hev'
      rw [hrt] at h2
      rw [hp] at h2
      refine ⟨?_, ?_, ?_, ?_⟩
      · unfold localDay
        rw [h2]
        omega
      · unfold localHour
        rw [h2]
        omega
      · unfold localMinute
        rw [h2]
        omega
      · unfold localSecond
        rw [h2]
        omega

/-- C9 witness: `"14"` / `"November 2025"` with start hour 6 in UTC yields
2025-11-14 06:00:00. -/
theorem parseDate_start_hour_clock_witness :
    localDay utcLoc exParsedDate = daysFromCivil 2025 11 14 ∧
    localHour utcLoc exParsedDate = 6 ∧
    localMinute utcLoc exParsedDate = 0 ∧ localSecond utcLoc exParsedDate = 0 :=
  parseDate_start_hour_clock utcLoc 6 (gs "14") (gs "November 2025")
    exParsedDate 2025 11 14 (by decide) (by decide) (by decide) (by decide)
    (by decide) (by decide)

/-! ## C10: calendar identifier stability -/

/-- C10: a VEVENT identifier is a function of the slugified stream name and
the local calendar date (here its day number, which determines the
`"20060102"` text) only: any two collections agreeing on those receive
byte-identical UIDs.  `eventID` is a pure function of its collection, so
re-emitting the same list trivially reproduces the same identifiers;
this theorem states the only-dependence half. -/
theorem eventID_function_of_slug_and_day (loc : Location) (c c' : Collection)
    (ht : slug c.type = slug c'.type)
    (hd : localDay loc c.date = localDay loc c'.date) :
    eventID loc c = eventID loc c' := by
  unfold eventID formatYYYYMMDD localDate
  rw [ht, hd]

/-- C10 witness: two logically equal events (same stream up to slug, same
calendar date) with different notes, instructions and clock times receive
the same identifier. -/
theorem eventID_function_of_slug_and_day_witness :
    eventID utcLoc ⟨exParsedDate, gs "Refuse", [], []⟩ =
      eventID utcLoc ⟨exParsedDate + 1800, gs "REFUSE", [⟨gs "x", []⟩], gs "n"⟩ :=
  eventID_function_of_slug_and_day utcLoc _ _ (by decide) (by decide)

/-! ## groupDays invariants -/

theorem lookupKey_isSome_iff (idx : List (Int × DaySummary)) (k : Int) :
    (lookupKey idx k).isSome = true ↔ k ∈ idx.map Prod.fst := by
  induction idx with
  | nil => simp [lookupKey]
  | cons p rest ih =>
    rcases p with ⟨k', ds⟩
    simp only [lookupKey, List.map_cons, List.mem_cons]
    by_cases h : k' = k
    · simp [h]
    · simp only [if_neg h, ih]
      constructor
      · exact Or.inr
      · rintro (rfl | hm)
        · exact absurd rfl h
        · exact hm

theorem updateKey_map_fst (idx : List (Int × DaySummary)) (k : Int)
    (f : DaySummary → DaySummary) :
    (updateKey idx k f).map Prod.fst = idx.map Prod.fst := by
  induction idx with
  | nil => rfl
  | cons p rest ih =>
    rcases p with ⟨k', ds⟩
    simp only [updateKey]
    by_cases h : k' = k
    · simp [h]
    · simp [h, ih]

theorem mem_updateKey (idx : List (Int × DaySummary)) (k : Int)
    (f : DaySummary → DaySummary) (hnod : (idx.map Prod.fst).Nodup)
    (p : Int × DaySummary) (hp : p ∈ updateKey idx k f) :
    (p ∈ idx ∧ p.1 ≠ k) ∨ ∃ ds, (k, ds) ∈ idx ∧ p = (k, f ds) := by
  induction idx with
  | nil => simp [updateKey] at hp
  | cons q rest ih =>
    rcases q with ⟨k', ds⟩
    simp only [List.map_cons, List.nodup_cons] at hnod
    simp only [updateKey] at hp
    by_cases h : k' = k
    · subst h
      rw [if_pos rfl] at hp
      rcases List.mem_cons.mp hp with rfl | hmem
      · exact Or.inr ⟨ds, List.mem_cons_self _ _, rfl⟩
      · left
        refine ⟨List.mem_cons_of_mem _ hmem, ?_⟩
        intro hk
        exact hnod.1 (hk ▸ List.mem_map_of_mem Prod.fst hmem)
    · rw [if_neg h] at hp
      rcases List.mem_cons.mp hp with rfl | hmem
      · exact Or.inl ⟨List.mem_cons_self _ _, h⟩
      · rcases ih hnod.2 hmem with ⟨hm, hne⟩ | ⟨ds', hm, rfl⟩
        · exact Or.inl ⟨List.mem_cons_of_mem _ hm, hne⟩
        · exact Or.inr ⟨ds', List.mem_cons_of_mem _ hm, rfl⟩

theorem nodup_keys_entry_eq {idx : List (Int × DaySummary)}
    (hnod : (idx.map Prod.fst).Nodup) {p q : Int × DaySummary}
    (hp : p ∈ idx) (hq : q ∈ idx) (hk : p.1 = q.1) : p = q := by
  induction idx with
  | nil => simp at hp
  | cons r rest ih =>
    simp only [List.map_cons, List.nodup_cons] at hnod
    rcases List.mem_cons.mp hp with rfl | hp' <;>
      rcases List.mem_cons.mp hq with rfl | hq'
    · rfl
    · exact absurd (hk ▸ List.mem_map_of_mem Prod.fst hq') hnod.1
    · exact absurd (hk ▸ List.mem_map_of_mem Prod.fst hp') (by
        intro hc
        exact hnod.1 hc)
    · exact ih hnod.2 hp' hq'

theorem addToIndex_inv (loc : Location) (idx : List (Int × DaySummary))
    (c : Collection) (h : IdxInv loc idx) :
    IdxInv loc (addToIndex loc idx c) := by
  rcases h with ⟨hmem, hnod⟩
  unfold addToIndex
  dsimp only
  by_cases hs : (lookupKey idx (localDay loc c.date)).isSome = true
  · rw [if_pos hs]
    constructor
    · intro p hp
      rcases mem_updateKey idx _ _ hnod p hp with ⟨hm, _⟩ | ⟨ds, hm, rfl⟩
      · exact hmem p hm
      · rcases hmem _ hm with ⟨ht, hd⟩
        by_cases hc : containsStr ds.types c.type = true
        · simpa [hc] using ⟨ht, hd⟩
        · constructor
          · simp [hc]
          · simpa [hc] using hd
    · rw [updateKey_map_fst]
      exact hnod
  · rw [if_neg hs]
    have hkey : localDay loc c.date ∉ idx.map Prod.fst := by
      intro hc
      exact hs ((lookupKey_isSome_iff idx _).mpr hc)
    have hnod1 : ((idx ++ [(localDay loc c.date,
        ({ date := c.date, types := [] } : DaySummary))]).map Prod.fst).Nodup := by
      rw [List.map_append]
      simp only [List.map_cons, List.map_nil]
      exact List.Nodup.append hnod (List.nodup_singleton _)
        (by
          intro a ha hb
          simp only [List.mem_singleton] at hb
          exact hkey (hb ▸ ha))
    constructor
    · intro p hp
      rcases mem_updateKey
          (idx ++ [(localDay loc c.date, ({ date := c.date, types := [] } : DaySummary))])
          (localDay loc c.date)
          (fun ds => if containsStr ds.types c.type = true then ds
            else { date := ds.date, types := ds.types ++ [c.type] })
          hnod1 p hp with ⟨hm, hne⟩ | ⟨ds, hm, rfl⟩
      · rcases List.mem_append.mp hm with hm' | hm'
        · exact hmem p hm'
        · simp only [List.mem_singleton] at hm'
          exact absurd (by rw [hm']) hne
      · rcases List.mem_append.mp hm with hm' | hm'
        · exact absurd (List.mem_map_of_mem Prod.fst hm') hkey
        · simp only [List.mem_singleton, Prod.mk.injEq] at hm'
          rcases hm' with ⟨_, rfl⟩
          constructor
          · simp [containsStr]
          · simp [containsStr]
    · rw [updateKey_map_fst]
      exact hnod1

theorem foldl_addToIndex_inv (loc : Location) (l : List Collection)
    (idx : List (Int × DaySummary)) (h : IdxInv loc idx) :
    IdxInv loc (l.foldl (addToIndex loc) idx) := by
  induction l generalizing idx with
  | nil => exact h
  | cons c rest ih =>
    exact ih _ (addToIndex_inv loc idx c h)

theorem groupDays_inv (loc : Location) (cols : List Collection) :
    ∀ ds ∈ groupDays loc cols, ds.types ≠ [] ∧
      ∀ ds' ∈ groupDays loc cols,
        localDay loc ds.date = localDay loc ds'.date → ds = ds' := by
  have hinv : IdxInv loc ((sortCollections cols).foldl (addToIndex loc) []) :=
    foldl_addToIndex_inv loc _ [] ⟨by simp, by simp⟩
  intro ds hds
  unfold groupDays at hds
  rcases List.mem_map.mp hds with ⟨p, hp, rfl⟩
  have hp' := (List.Perm.mem_iff (List.perm_insertionSort keyLe _)).mp hp
  refine ⟨(hinv.1 p hp').1, ?_⟩
  intro ds' hds' hld
  unfold groupDays at hds'
  rcases List.mem_map.mp hds' with ⟨q, hq, rfl⟩
  have hq' := (List.Perm.mem_iff (List.perm_insertionSort keyLe _)).mp hq
  have h1 : p.1 = q.1 := by
    rw [← (hinv.1 p hp').2, ← (hinv.1 q hq').2]
    exact hld
  rw [nodup_keys_entry_eq hinv.2 hp' hq' h1]

theorem todayAux_eq_find (loc : Location) (now : Instant) (l : List DaySummary) :
    todayAux loc now l =
      ((l.find? (todayCond loc now)).map DaySummary.types).getD [] := by
  induction l with
  | nil => rfl
  | cons d rest ih =>
    unfold todayAux
    by_cases h : todayCond loc now d = true
    · rw [if_pos h, List.find?_cons_of_pos _ h]
      rfl
    · rw [if_neg h, List.find?_cons_of_neg _ (by simpa using h)]
      exact ih

theorem nextDayAux_eq_find (loc : Location) (now : Instant) (l : List DaySummary) :
    nextDayAux loc now l = l.find? (nextCond loc now) := by
  induction l with
  | nil => rfl
  | cons d rest ih =>
    unfold nextDayAux
    by_cases h : nextCond loc now d = true
    · rw [if_pos h, List.find?_cons_of_pos _ h]
    · rw [if_neg h]
      have h2 : ¬(now < d.date) := by
        intro hlt
        apply h
        unfold nextCond collectionDuration
        simp only [Bool.or_eq_true, decide_eq_true_eq]
        left
        linarith
      rw [if_neg h2, List.find?_cons_of_neg _ (by simpa using h)]
      exact ih

/-- C2 amended: `today(now)` is non-empty exactly when some day summary is
on `now`'s calendar date with the hour after its (earliest) event start
not yet elapsed — the code does not test the lower end of the window, so
any instant of the calendar date before the window also qualifies; and at
`now = eventStart + 1h` exactly (while still on the same calendar date)
`today` returns the empty list. -/
theorem today_nonempty_iff_window (loc : Location) (now : Instant)
    (cols : List Collection) :
    (today loc now cols ≠ [] ↔
      ∃ ds ∈ groupDays loc cols,
        sameDay loc now ds.date = true ∧ now < ds.date + collectionDuration) ∧
    (∀ ds ∈ groupDays loc cols,
      sameDay loc (ds.date + collectionDuration) ds.date = true →
        today loc (ds.date + collectionDuration) cols = []) := by
  constructor
  · constructor
    · intro hne
      rw [today, todayAux_eq_find] at hne
      rcases hfind : (groupDays loc cols).find? (todayCond loc now) with _ | ds
      · rw [hfind] at hne
        simp at hne
      · have hmem := List.mem_of_find?_eq_some hfind
        have hcond := List.find?_some hfind
        refine ⟨ds, hmem, ?_⟩
        simpa [todayCond] using hcond
    · rintro ⟨ds, hmem, hsd, hlt⟩
      rw [today, todayAux_eq_find]
      have hex : ∃ x ∈ groupDays loc cols, todayCond loc now x = true :=
        ⟨ds, hmem, by simp [todayCond, hsd, hlt]⟩
      rcases List.find?_isSome.mpr hex |> Option.isSome_iff_exists.mp with ⟨ds', hfind⟩
      rw [hfind]
      have hmem' := List.mem_of_find?_eq_some hfind
      simpa using (groupDays_inv loc cols ds' hmem').1
  · intro ds hmem hb
    rw [today, todayAux_eq_find]
    rcases hfind : (groupDays loc cols).find?
        (todayCond loc (ds.date + collectionDuration)) with _ | ds'
    · rfl
    · exfalso
      have hmem' := List.mem_of_find?_eq_some hfind
      have hcond := List.find?_some hfind
      simp only [todayCond, Bool.and_eq_true, decide_eq_true_eq] at hcond
      have hsame : localDay loc ds'.date = localDay loc ds.date := by
        have h1 : localDay loc (ds.date + collectionDuration) = localDay loc ds'.date := by
          simpa [sameDay] using hcond.1
        have h2 : localDay loc (ds.date + collectionDuration) = localDay loc ds.date := by
          simpa [sameDay] using hb
        omega
      have := ((groupDays_inv loc cols ds' hmem').2 ds hmem hsame)
      subst this
      exact absurd hcond.2 (lt_irrefl _)

/-- C2 witness for the amended theorem. -/
theorem today_nonempty_iff_window_witness :
    today utcLoc (exColRefuse.date + collectionDuration) [exColRefuse] = [] :=
  (today_nonempty_iff_window utcLoc (exColRefuse.date + collectionDuration)
      [exColRefuse]).2
    ⟨exColRefuse.date, [gs "Refuse"]⟩ (by decide) (by decide)

/-- C5 amended: `next(now)` returns the first day summary (in ascending
key order) satisfying the loop condition
`now < date + 1h or (sameDay(now, date) and now <= date + 1h)` — the
second source-level branch `day.Date.After(now)` is subsumed — and
reports not-found when no summary qualifies.  A returned day on `now`'s
own calendar date always gives `daysBetween(now, date) = 0`.  (The
returned day can lie on an earlier calendar date, and the day is still
returned at exactly `now = date + 1h`; see the counterexample.) -/
theorem nextDay_first_qualifying (loc : Location) (now : Instant)
    (cols : List Collection) :
    nextDay loc now cols = (groupDays loc cols).find? (nextCond loc now) ∧
    (∀ ds, nextDay loc now cols = some ds → sameDay loc now ds.date = true →
      daysBetween loc now ds.date = 0) := by
  constructor
  · exact nextDayAux_eq_find loc now (groupDays loc cols)
  · intro ds _ hsd
    have hld : localDay loc now = localDay loc ds.date := by
      simpa [sameDay] using hsd
    unfold daysBetween localMidnight localDate
    rw [hld]
    simp [Int.sub_self]

/-- C5 witness for the amended theorem. -/
theorem nextDay_first_qualifying_witness :
    daysBetween utcLoc (exColRefuse.date + 600) exColRefuse.date = 0 :=
  (nextDay_first_qualifying utcLoc (exColRefuse.date + 600) [exColRefuse]).2
    ⟨exColRefuse.date, [gs "Refuse"]⟩ (by decide) (by decide)

/-! ## C4: sort order and stability -/

theorem filter_orderedInsert (dd : Int) (a : Collection) (l : List Collection) :
    (List.orderedInsert dateLe a l).filter (fun c => c.date == dd) =
      if a.date == dd then a :: l.filter (fun c => c.date == dd)
      else l.filter (fun c => c.date == dd) := by
  induction l with
  | nil =>
    simp only [List.orderedInsert]
    by_cases h : (a.date == dd) = true <;> simp [List.filter, h]
  | cons b rest ih =>
    simp only [List.orderedInsert]
    by_cases hr : dateLe a b
    · rw [if_pos hr]
      by_cases h : (a.date == dd) = true <;>
        simp [List.filter_cons, h]
    · rw [if_neg hr]
      rw [List.filter_cons, List.filter_cons]
      by_cases hb : (b.date == dd) = true
      · by_cases h : (a.date == dd) = true
        · exfalso
          apply hr
          unfold dateLe
          rw [beq_iff_eq.mp h, beq_iff_eq.mp hb]
        · simp [hb, ih, h]
      · simp [hb, ih]

theorem filter_insertionSort (dd : Int) (l : List Collection) :
    (List.insertionSort dateLe l).filter (fun c => c.date == dd) =
      l.filter (fun c => c.date == dd) := by
  induction l with
  | nil => rfl
  | cons a rest ih =>
    simp only [List.insertionSort]
    rw [filter_orderedInsert, ih, List.filter_cons]

/-- C4 amended: the list FetchCollections returns is sorted ascending by
date-time (non-strictly), and events with equal date-times keep the stable
per-stream processing order of the parse (the table order Refuse,
Recycling, Garden Waste, Food Waste), expressed as: filtering the output
at any fixed date-time gives exactly the parse-order sublist.  This is not
stream-name string order (see the counterexample).  The model sort is the
insertion sort Go pdqsort runs for slices shorter than 13 elements; any
stable sort produces the same list. -/
theorem fetchPipeline_sorted_stable (loc : Location) (startHour : Int)
    (doc : Document) (cs rs : List Collection)
    (h : fetchPipeline loc startHour doc = .ok cs)
    (hr : parseCollections loc startHour doc = .ok rs) :
    List.Pairwise dateLe cs ∧
    (rs.length ≤ 12 →
      ∀ dd, cs.filter (fun c => c.date == dd) =
        rs.filter (fun c => c.date == dd)) := by
  unfold fetchPipeline at h
  rw [hr] at h
  dsimp only at h
  by_cases hlen : rs.length = 0
  · rw [if_pos hlen] at h
    exact absurd h (by simp)
  · rw [if_neg hlen] at h
    have hcs : cs = sortCollections rs := by
      simpa using h.symm
    subst hcs
    constructor
    · exact List.sorted_insertionSort dateLe rs
    · intro _ dd
      exact filter_insertionSort dd rs

/-- C4 witness for the amended theorem: a two-event result, within the
insertion-sort length bound, sorted with its tie kept in parse order. -/
theorem fetchPipeline_sorted_stable_witness :
    List.Pairwise dateLe
      [⟨exParsedDate, gs "Refuse", [], []⟩,
       ⟨exParsedDate, gs "Recycling", [], []⟩] ∧
    [(⟨exParsedDate, gs "Refuse", [], []⟩ : Collection),
      ⟨exParsedDate, gs "Recycling", [], []⟩].filter
        (fun c => c.date == exParsedDate) =
      [(⟨exParsedDate, gs "Refuse", [], []⟩ : Collection),
        ⟨exParsedDate, gs "Recycling", [], []⟩].filter
        (fun c => c.date == exParsedDate) :=
  ⟨(fetchPipeline_sorted_stable utcLoc 6 exDocTwoStreams
      [⟨exParsedDate, gs "Refuse", [], []⟩, ⟨exParsedDate, gs "Recycling", [], []⟩]
      [⟨exParsedDate, gs "Refuse", [], []⟩, ⟨exParsedDate, gs "Recycling", [], []⟩]
      (by decide) (by decide)).1,
   (fetchPipeline_sorted_stable utcLoc 6 exDocTwoStreams
      [⟨exParsedDate, gs "Refuse", [], []⟩, ⟨exParsedDate, gs "Recycling", [], []⟩]
      [⟨exParsedDate, gs "Refuse", [], []⟩, ⟨exParsedDate, gs "Recycling", [], []⟩]
      (by decide) (by decide)).2 (by decide) exParsedDate⟩

/-! ## Parse-state invariants -/

theorem updateAt_length {α : Type} (l : List α) (i : Nat) (f : α → α) :
    (updateAt l i f).length = l.length := by
  induction l generalizing i with
  | nil => rfl
  | cons a t ih =>
    cases i with
    | zero => rfl
    | succ n => simp [updateAt, ih]

theorem processEntry_inv (loc : Location) (startHour : Int) (wt : GoStr)
    (instrs : List Instruction) (st : ParseState) (e : Entry)
    (h : SeenInv st) :
    SeenInv (processEntry loc startHour wt instrs st e).1 ∧
    st.results.length ≤ (processEntry loc startHour wt instrs st e).1.results.length := by
  unfold processEntry
  dsimp only
  by_cases hc : (trimSpace e.dayRaw = [] ∨ trimSpace e.monthRaw = [])
  · rw [if_pos hc]
    exact ⟨h, le_refl _⟩
  · rw [if_neg hc]
    rcases hpd : parseDate loc startHour (trimSpace e.dayRaw) (trimSpace e.monthRaw)
      with _ | date
    · exact ⟨h, le_refl _⟩
    · dsimp only
      rcases hls : lookupSeen st.seen (date, wt) with _ | idx
      · refine ⟨?_, by simp⟩
        intro p hp
        simp only [List.length_append, List.length_cons, List.length_nil]
        rcases List.mem_append.mp hp with hm | hm
        · have := h p hm
          omega
        · simp only [List.mem_singleton] at hm
          subst hm
          simp only
          omega
      · refine ⟨?_, by rw [updateAt_length]⟩
        intro p hp
        rw [updateAt_length]
        exact h p hp

theorem processEntry_invalid (loc : Location) (startHour : Int) (wt : GoStr)
    (instrs : List Instruction) (st : ParseState) (e : Entry)
    (h : entryValid loc startHour e = false) :
    processEntry loc startHour wt instrs st e = (st, false) := by
  unfold entryValid at h
  unfold processEntry
  dsimp only
  by_cases hc : (trimSpace e.dayRaw = [] ∨ trimSpace e.monthRaw = [])
  · rw [if_pos hc]
  · rw [if_neg hc]
    push_neg at hc
    rcases hpd : parseDate loc startHour (trimSpace e.dayRaw) (trimSpace e.monthRaw)
      with _ | date
    · rfl
    · exfalso
      rw [hpd] at h
      simp [hc.1, hc.2] at h

theorem lookupSeen_mem {seen : List (DedupKey × Nat)} {k : DedupKey} {i : Nat}
    (h : lookupSeen seen k = some i) : (k, i) ∈ seen := by
  induction seen with
  | nil => simp [lookupSeen] at h
  | cons p rest ih =>
    rcases p with ⟨k', j⟩
    simp only [lookupSeen] at h
    by_cases hk : k' = k
    · rw [if_pos hk] at h
      simp only [Option.some.injEq] at h
      subst hk
      subst h
      exact List.mem_cons_self _ _
    · rw [if_neg hk] at h
      exact List.mem_cons_of_mem _ (ih h)

theorem processEntry_valid_ne_nil (loc : Location) (startHour : Int) (wt : GoStr)
    (instrs : List Instruction) (st : ParseState) (e : Entry)
    (h : entryValid loc startHour e = true) (hinv : SeenInv st) :
    (processEntry loc startHour wt instrs st e).1.results ≠ [] := by
  unfold entryValid at h
  simp only [Bool.and_eq_true, decide_eq_true_eq, Option.isSome_iff_exists] at h
  rcases h with ⟨⟨hd, hm⟩, date, hpd⟩
  unfold processEntry
  dsimp only
  rw [if_neg (by tauto)]
  rw [hpd]
  dsimp only
  rcases hls : lookupSeen st.seen (date, wt) with _ | idx
  · simp
  · have hlen := hinv _ (lookupSeen_mem hls)
    intro hnil
    rw [← List.length_eq_zero] at hnil
    rw [updateAt_length] at hnil
    omega

theorem processEntries_fst (loc : Location) (startHour : Int) (wt : GoStr)
    (instrs : List Instruction) (entries : List Entry) :
    ∀ (st : ParseState) (n : Nat),
      (entries.foldl
        (fun (acc : ParseState × Nat) e =>
          let (st', added) := processEntry loc startHour wt instrs acc.1 e
          (st', if added then acc.2 + 1 else acc.2)) (st, n)).1 =
      pState loc startHour wt instrs st entries := by
  induction entries with
  | nil => intro st n; rfl
  | cons e rest ih =>
    intro st n
    simp only [List.foldl_cons]
    exact ih _ _

theorem pState_inv (loc : Location) (startHour : Int) (wt : GoStr)
    (instrs : List Instruction) (entries : List Entry) :
    ∀ (st : ParseState), SeenInv st →
      SeenInv (pState loc startHour wt instrs st entries) ∧
      st.results.length ≤ (pState loc startHour wt instrs st entries).results.length := by
  induction entries with
  | nil => intro st h; exact ⟨h, le_refl _⟩
  | cons e rest ih =>
    intro st h
    have h1 := processEntry_inv loc startHour wt instrs st e h
    have h2 := ih _ h1.1
    exact ⟨h2.1, le_trans h1.2 h2.2⟩

theorem pState_all_invalid (loc : Location) (startHour : Int) (wt : GoStr)
    (instrs : List Instruction) (entries : List Entry)
    (h : ∀ e ∈ entries, entryValid loc startHour e = false) :
    ∀ st, pState loc startHour wt instrs st entries = st := by
  induction entries with
  | nil => intro st; rfl
  | cons e rest ih =>
    intro st
    unfold pState
    simp only [List.foldl_cons]
    rw [processEntry_invalid loc startHour wt instrs st e
      (h e (List.mem_cons_self _ _))]
    exact ih (fun e' he' => h e' (List.mem_cons_of_mem _ he')) st

theorem pState_some_valid (loc : Location) (startHour : Int) (wt : GoStr)
    (instrs : List Instruction) (entries : List Entry) :
    ∀ st, (∃ e ∈ entries, entryValid loc startHour e = true) → SeenInv st →
      (pState loc startHour wt instrs st entries).results ≠ [] := by
  induction entries with
  | nil =>
    rintro st ⟨e, he, _⟩ _
    simp at he
  | cons e rest ih =>
    rintro st ⟨e', he', hv⟩ hinv
    have hsteq : pState loc startHour wt instrs st (e :: rest) =
        pState loc startHour wt instrs
          (processEntry loc startHour wt instrs st e).1 rest := rfl
    rw [hsteq]
    have hstep := processEntry_inv loc startHour wt instrs st e hinv
    rcases List.mem_cons.mp he' with rfl | hmem
    · have hne := processEntry_valid_ne_nil loc startHour wt instrs st e' hv hinv
      have hmon := (pState_inv loc startHour wt instrs rest _ hstep.1).2
      intro hnil
      rw [← List.length_eq_zero] at hnil
      rw [← List.length_pos] at hne
      omega
    · exact ih _ ⟨e', hmem, hv⟩ hstep.1

theorem processBlock_fst (loc : Location) (startHour : Int) (doc : Document)
    (acc : ParseState × GoStr) (sid : StreamId) :
    (processBlock loc startHour doc acc sid).1 =
      if (doc.blockOf sid).present then
        pState loc startHour (wasteTypeOf sid) (doc.blockOf sid).instructions
          acc.1 (doc.blockOf sid).entries
      else acc.1 := by
  unfold processBlock
  dsimp only
  by_cases hp : (doc.blockOf sid).present
  · rw [if_pos hp]
    simp only [hp, Bool.not_true, Bool.false_eq_true, if_false]
    rw [processEntries]
    rw [processEntries_fst]
    split
    · split <;> rfl
    · split <;> rfl
  · simp only [Bool.not_eq_true'] at hp
    simp [hp]

theorem processBlock_inv (loc : Location) (startHour : Int) (doc : Document)
    (acc : ParseState × GoStr) (sid : StreamId) (h : SeenInv acc.1) :
    SeenInv (processBlock loc startHour doc acc sid).1 ∧
    acc.1.results.length ≤ (processBlock loc startHour doc acc sid).1.results.length := by
  rw [processBlock_fst]
  by_cases hp : (doc.blockOf sid).present
  · rw [if_pos hp]
    exact pState_inv loc startHour _ _ _ acc.1 h
  · rw [if_neg hp]
    exact ⟨h, le_refl _⟩

theorem processBlock_zero (loc : Location) (startHour : Int) (doc : Document)
    (acc : ParseState × GoStr) (sid : StreamId)
    (h : blockCount loc startHour doc sid = 0) :
    (processBlock loc startHour doc acc sid).1 = acc.1 := by
  rw [processBlock_fst]
  unfold blockCount at h
  by_cases hp : (doc.blockOf sid).present
  · rw [if_pos hp]
    rw [if_pos hp] at h
    rw [List.length_eq_zero] at h
    refine pState_all_invalid loc startHour _ _ _ ?_ acc.1
    intro e he
    by_contra hne
    have : e ∈ (doc.blockOf sid).entries.filter (entryValid loc startHour) :=
      List.mem_filter.mpr ⟨he, by simpa using hne⟩
    rw [h] at this
    simp at this
  · rw [if_neg hp]

theorem processBlock_pos (loc : Location) (startHour : Int) (doc : Document)
    (acc : ParseState × GoStr) (sid : StreamId)
    (h : blockCount loc startHour doc sid ≠ 0) (hinv : SeenInv acc.1) :
    (processBlock loc startHour doc acc sid).1.results ≠ [] := by
  rw [processBlock_fst]
  unfold blockCount at h
  by_cases hp : (doc.blockOf sid).present
  · rw [if_pos hp]
    rw [if_pos hp] at h
    have : ∃ e ∈ (doc.blockOf sid).entries, entryValid loc startHour e = true := by
      rcases List.exists_mem_of_length_pos (Nat.pos_of_ne_zero h) with ⟨e, he⟩
      exact ⟨e, (List.mem_filter.mp he).1, (List.mem_filter.mp he).2⟩
    exact pState_some_valid loc startHour _ _ _ acc.1 this hinv
  · rw [if_neg hp] at h
    exact absurd rfl h

theorem foldBlocks_inv (loc : Location) (startHour : Int) (doc : Document)
    (sids : List StreamId) :
    ∀ acc, SeenInv acc.1 →
      SeenInv (sids.foldl (processBlock loc startHour doc) acc).1 ∧
      acc.1.results.length ≤
        (sids.foldl (processBlock loc startHour doc) acc).1.results.length := by
  induction sids with
  | nil => intro acc h; exact ⟨h, le_refl _⟩
  | cons sid rest ih =>
    intro acc h
    simp only [List.foldl_cons]
    have h1 := processBlock_inv loc startHour doc acc sid h
    have h2 := ih _ h1.1
    exact ⟨h2.1, le_trans h1.2 h2.2⟩

theorem foldBlocks_zero (loc : Location) (startHour : Int) (doc : Document)
    (sids : List StreamId)
    (h : ∀ sid ∈ sids, blockCount loc startHour doc sid = 0) :
    ∀ acc, (sids.foldl (processBlock loc startHour doc) acc).1 = acc.1 := by
  induction sids with
  | nil => intro acc; rfl
  | cons sid rest ih =>
    intro acc
    simp only [List.foldl_cons]
    rw [ih (fun s hs => h s (List.mem_cons_of_mem _ hs))]
    exact processBlock_zero loc startHour doc acc sid (h sid (List.mem_cons_self _ _))

theorem foldBlocks_pos (loc : Location) (startHour : Int) (doc : Document)
    (sids : List StreamId) :
    ∀ acc, (∃ sid ∈ sids, blockCount loc startHour doc sid ≠ 0) → SeenInv acc.1 →
      (sids.foldl (processBlock loc startHour doc) acc).1.results ≠ [] := by
  induction sids with
  | nil =>
    rintro acc ⟨sid, hs, _⟩ _
    simp at hs
  | cons sid rest ih =>
    rintro acc ⟨sid', hs', hnz⟩ hinv
    simp only [List.foldl_cons]
    have hstep := processBlock_inv loc startHour doc acc sid hinv
    rcases List.mem_cons.mp hs' with rfl | hmem
    · have hne := processBlock_pos loc startHour doc acc sid' hnz hinv
      have hmon := (foldBlocks_inv loc startHour doc rest _ hstep.1).2
      intro hnil
      rw [← List.length_eq_zero] at hnil
      rw [← List.length_pos] at hne
      omega
    · exact ih _ ⟨sid', hmem, hnz⟩ hstep.1

theorem applyGardenNotice_length (gn : GoStr) (rs : List Collection) :
    (applyGardenNotice gn rs).length = rs.length := by
  unfold applyGardenNotice
  split
  · simp
  · rfl

theorem parsePhase1_results_nil_iff (loc : Location) (startHour : Int)
    (doc : Document) :
    ((parsePhase1 loc startHour doc).1.results = [] ↔
      countValidEntries loc startHour doc = 0) := by
  have hcount : countValidEntries loc startHour doc =
      (defsOrder.map (blockCount loc startHour doc)).sum := by
    unfold countValidEntries blockCount
    rfl
  constructor
  · intro hnil
    rw [hcount]
    rw [List.sum_eq_zero_iff]
    intro x hx
    rcases List.mem_map.mp hx with ⟨sid, hsid, rfl⟩
    by_contra hnz
    exact foldBlocks_pos loc startHour doc defsOrder (⟨[], []⟩, [])
      ⟨sid, hsid, hnz⟩ (by intro p hp; simp at hp) hnil
  · intro hz
    rw [hcount] at hz
    rw [List.sum_eq_zero_iff] at hz
    unfold parsePhase1
    rw [foldBlocks_zero loc startHour doc defsOrder
      (fun sid hs => hz _ (List.mem_map_of_mem _ hs))]

/-- C6: the combined parse step (parseCollections plus the emptiness check
in FetchCollections) fails with `ErrNoCollections` exactly when the outer
schedule container is absent or the total number of valid extracted
entries over all present stream blocks is zero; a single absent stream
block merely contributes zero entries and is never by itself an error. -/
theorem parse_errNoCollections_iff (loc : Location) (startHour : Int)
    (doc : Document) :
    fetchPipeline loc startHour doc = .error .noCollections ↔
      doc.hasContainer = false ∨ countValidEntries loc startHour doc = 0 := by
  unfold fetchPipeline parseCollections
  by_cases hc : doc.hasContainer = true
  · rw [hc]
    simp only [Bool.not_true, Bool.false_eq_true, if_false]
    rcases hps : parsePhase1 loc startHour doc with ⟨st, gn⟩
    dsimp only
    have hlen : (applyGardenNotice gn st.results).length = st.results.length :=
      applyGardenNotice_length gn st.results
    constructor
    · intro herr
      right
      rw [← parsePhase1_results_nil_iff loc startHour doc, hps]
      dsimp only
      by_cases hz : (applyGardenNotice gn st.results).length = 0
      · rw [← List.length_eq_zero]
        omega
      · rw [if_neg hz] at herr
        exact absurd herr (by simp)
    · rintro (hfalse | hcnt)
      · exact absurd hfalse (by simp)
      · rw [← parsePhase1_results_nil_iff loc startHour doc, hps] at hcnt
        dsimp only at hcnt
        rw [if_pos (by rw [hlen, hcnt]; rfl)]
  · simp only [Bool.not_eq_true] at hc
    rw [hc]
    simp

/-! ## C8: dedup idempotence and merge discipline -/

theorem updateAt_out_of_range {α : Type} (l : List α) (i : Nat) (f : α → α)
    (h : l.length ≤ i) : updateAt l i f = l := by
  induction l generalizing i with
  | nil => rfl
  | cons a t ih =>
    cases i with
    | zero => simp at h
    | succ n =>
      simp only [List.length_cons] at h
      simp only [updateAt]
      rw [ih n (by omega)]

theorem updateAt_updateAt {α : Type} (l : List α) (i : Nat) (f g : α → α) :
    updateAt (updateAt l i f) i g = updateAt l i (fun x => g (f x)) := by
  induction l generalizing i with
  | nil => rfl
  | cons a t ih =>
    cases i with
    | zero => rfl
    | succ n => simp [updateAt, ih]

theorem updateAt_getElem {α : Type} (l : List α) (i : Nat) (f : α → α) :
    (updateAt l i f)[i]? = (l[i]?).map f := by
  induction l generalizing i with
  | nil => rfl
  | cons a t ih =>
    cases i with
    | zero => simp [updateAt]
    | succ n =>
      simp only [updateAt, List.getElem?_cons_succ]
      exact ih n

theorem updateAt_getElem_ne {α : Type} (l : List α) (i j : Nat) (f : α → α)
    (h : j ≠ i) : (updateAt l i f)[j]? = l[j]? := by
  induction l generalizing i j with
  | nil => rfl
  | cons a t ih =>
    cases i with
    | zero =>
      cases j with
      | zero => exact absurd rfl h
      | succ m => simp [updateAt]
    | succ n =>
      cases j with
      | zero => simp [updateAt]
      | succ m =>
        simp only [updateAt, List.getElem?_cons_succ]
        exact ih n m (by omega)

theorem updateAt_eq_self {α : Type} (l : List α) (i : Nat) (f : α → α)
    (h : ∀ x, l[i]? = some x → f x = x) : updateAt l i f = l := by
  induction l generalizing i with
  | nil => rfl
  | cons a t ih =>
    cases i with
    | zero =>
      simp only [updateAt]
      rw [h a (by simp)]
    | succ n =>
      simp only [updateAt, List.cons.injEq]
      refine ⟨by trivial, ih n (fun x hx => h x ?_)⟩
      simpa using hx

theorem updateAt_map {α β : Type} (l : List α) (i : Nat) (f : α → α)
    (g : α → β) (h : ∀ x, g (f x) = g x) :
    (updateAt l i f).map g = l.map g := by
  induction l generalizing i with
  | nil => rfl
  | cons a t ih =>
    cases i with
    | zero => simp [updateAt, h]
    | succ n => simp [updateAt, ih]

theorem lookupSeen_none_not_mem {seen : List (DedupKey × Nat)} {k : DedupKey}
    (h : lookupSeen seen k = none) : k ∉ seen.map Prod.fst := by
  induction seen with
  | nil => simp
  | cons p rest ih =>
    rcases p with ⟨k', j⟩
    simp only [lookupSeen] at h
    by_cases hk : k' = k
    · rw [if_pos hk] at h
      exact absurd h (by simp)
    · rw [if_neg hk] at h
      simp only [List.map_cons, List.mem_cons]
      rintro (rfl | hm)
      · exact hk rfl
      · exact ih h hm

theorem lookupSeen_append_self (seen : List (DedupKey × Nat)) (k : DedupKey)
    (n : Nat) (h : lookupSeen seen k = none) :
    lookupSeen (seen ++ [(k, n)]) k = some n := by
  induction seen with
  | nil => simp [lookupSeen]
  | cons p rest ih =>
    rcases p with ⟨k', j⟩
    simp only [lookupSeen] at h
    by_cases hk : k' = k
    · rw [if_pos hk] at h
      exact absurd h (by simp)
    · rw [if_neg hk] at h
      simp only [List.cons_append, lookupSeen, if_neg hk]
      exact ih h

theorem mergeEvent_fields (note : GoStr) (instrs : List Instruction)
    (old : Collection) :
    (mergeEvent note instrs old).date = old.date ∧
    (mergeEvent note instrs old).type = old.type ∧
    (old.note ≠ [] → (mergeEvent note instrs old).note = old.note) ∧
    (old.instructions ≠ [] →
      (mergeEvent note instrs old).instructions = old.instructions) ∧
    ((mergeEvent note instrs old).instructions = old.instructions ∨
      (mergeEvent note instrs old).instructions = instrs) := by
  unfold mergeEvent cloneInstructions
  dsimp only
  split_ifs with h1 h2 h3 <;> simp_all

theorem mergeEvent_idem (note : GoStr) (instrs : List Instruction)
    (x : Collection) :
    mergeEvent note instrs (mergeEvent note instrs x) = mergeEvent note instrs x := by
  unfold mergeEvent cloneInstructions
  dsimp only
  split_ifs <;> simp_all

/-- The new event created on first sighting is a fixed point of the merge
with the same candidate data. -/
theorem mergeEvent_fresh (note : GoStr) (instrs : List Instruction)
    (date : Instant) (wt : GoStr) :
    mergeEvent note instrs
      { date := date, type := wt,
        instructions := cloneInstructions instrs, note := note } =
      { date := date, type := wt,
        instructions := cloneInstructions instrs, note := note } := by
  unfold mergeEvent cloneInstructions
  dsimp only
  split_ifs <;> simp_all

theorem mergeEvent_keyOf (note : GoStr) (instrs : List Instruction)
    (x : Collection) : keyOf (mergeEvent note instrs x) = keyOf x := by
  have h := mergeEvent_fields note instrs x
  unfold keyOf
  rw [h.1, h.2.1]

theorem processEntry_keysInv (loc : Location) (startHour : Int) (wt : GoStr)
    (instrs : List Instruction) (st : ParseState) (e : Entry)
    (h : KeysInv st) : KeysInv (processEntry loc startHour wt instrs st e).1 := by
  unfold processEntry
  dsimp only
  by_cases hc : (trimSpace e.dayRaw = [] ∨ trimSpace e.monthRaw = [])
  · rw [if_pos hc]
    exact h
  · rw [if_neg hc]
    rcases hpd : parseDate loc startHour (trimSpace e.dayRaw) (trimSpace e.monthRaw)
      with _ | date
    · exact h
    · dsimp only
      rcases hls : lookupSeen st.seen (date, wt) with _ | idx
      · constructor
        · simp only [List.map_append, List.map_cons, List.map_nil]
          rw [h.1]
          rfl
        · simp only [List.map_append, List.map_cons, List.map_nil]
          refine List.Nodup.append h.2 (List.nodup_singleton _) ?_
          intro a ha hb
          simp only [List.mem_singleton] at hb
          subst hb
          exact lookupSeen_none_not_mem hls ha
      · constructor
        · rw [updateAt_map st.results idx _ keyOf (mergeEvent_keyOf _ _)]
          exact h.1
        · exact h.2

theorem pState_keysInv (loc : Location) (startHour : Int) (wt : GoStr)
    (instrs : List Instruction) (entries : List Entry) :
    ∀ st, KeysInv st → KeysInv (pState loc startHour wt instrs st entries) := by
  induction entries with
  | nil => intro st h; exact h
  | cons e rest ih =>
    intro st h
    exact ih _ (processEntry_keysInv loc startHour wt instrs st e h)

theorem processBlock_keysInv (loc : Location) (startHour : Int) (doc : Document)
    (acc : ParseState × GoStr) (sid : StreamId) (h : KeysInv acc.1) :
    KeysInv (processBlock loc startHour doc acc sid).1 := by
  rw [processBlock_fst]
  by_cases hp : (doc.blockOf sid).present
  · rw [if_pos hp]
    exact pState_keysInv loc startHour _ _ _ acc.1 h
  · rw [if_neg hp]
    exact h

theorem foldBlocks_keysInv (loc : Location) (startHour : Int) (doc : Document)
    (sids : List StreamId) :
    ∀ acc, KeysInv acc.1 →
      KeysInv (sids.foldl (processBlock loc startHour doc) acc).1 := by
  induction sids with
  | nil => intro acc h; exact h
  | cons sid rest ih =>
    intro acc h
    simp only [List.foldl_cons]
    exact ih _ (processBlock_keysInv loc startHour doc acc sid h)

theorem applyGardenNotice_keys (gn : GoStr) (rs : List Collection) :
    (applyGardenNotice gn rs).map keyOf = rs.map keyOf := by
  unfold applyGardenNotice
  split
  · rw [List.map_map]
    refine List.map_congr_left ?_
    intro c _
    simp only [Function.comp_apply]
    split
    · rfl
    · rfl
  · rfl

theorem fetchPipeline_keys_nodup (loc : Location) (startHour : Int)
    (doc : Document) (cs : List Collection)
    (h : fetchPipeline loc startHour doc = .ok cs) :
    (cs.map keyOf).Nodup := by
  unfold fetchPipeline parseCollections at h
  by_cases hc : doc.hasContainer = true
  · rw [hc] at h
    simp only [Bool.not_true, Bool.false_eq_true, if_false] at h
    rcases hps : parsePhase1 loc startHour doc with ⟨st, gn⟩
    rw [hps] at h
    dsimp only at h
    by_cases hz : (applyGardenNotice gn st.results).length = 0
    · rw [if_pos hz] at h
      exact absurd h (by simp)
    · rw [if_neg hz] at h
      simp only [Except.ok.injEq] at h
      subst h
      have hkinv : KeysInv (parsePhase1 loc startHour doc).1 := by
        unfold parsePhase1
        exact foldBlocks_keysInv loc startHour doc defsOrder _ ⟨rfl, List.nodup_nil⟩
      rw [hps] at hkinv
      have hkeys : (applyGardenNotice gn st.results).map keyOf = st.seen.map Prod.fst := by
        rw [applyGardenNotice_keys]
        exact hkinv.1
      have hnody : ((applyGardenNotice gn st.results).map keyOf).Nodup := by
        rw [hkeys]
        exact hkinv.2
      have hperm : List.Perm
          ((sortCollections (applyGardenNotice gn st.results)).map keyOf)
          ((applyGardenNotice gn st.results).map keyOf) :=
        (List.perm_insertionSort dateLe _).map keyOf
      exact hperm.nodup_iff.mpr hnody
  · simp only [Bool.not_eq_true] at hc
    rw [hc] at h
    simp at h

theorem processEntry_idem (loc : Location) (startHour : Int) (wt : GoStr)
    (instrs : List Instruction) (st : ParseState) (e : Entry) :
    processEntry loc startHour wt instrs
        (processEntry loc startHour wt instrs st e).1 e =
      ((processEntry loc startHour wt instrs st e).1, false) := by
  by_cases hc : (trimSpace e.dayRaw = [] ∨ trimSpace e.monthRaw = [])
  · have h1 : processEntry loc startHour wt instrs st e = (st, false) := by
      unfold processEntry
      dsimp only
      rw [if_pos hc]
    rw [h1]
    exact h1
  · rcases hpd : parseDate loc startHour (trimSpace e.dayRaw)
      (trimSpace e.monthRaw) with _ | date
    · have h1 : processEntry loc startHour wt instrs st e = (st, false) := by
        unfold processEntry
        dsimp only
        rw [if_neg hc, hpd]
      rw [h1]
      exact h1
    · rcases hls : lookupSeen st.seen (date, wt) with _ | idx
      · -- first sighting appends; the second merges into the fresh event,
        -- which is a fixed point of the merge
        have h1 : processEntry loc startHour wt instrs st e =
            ({ results := st.results ++
                [{ date := date, type := wt,
                   instructions := cloneInstructions instrs,
                   note := extractNoteText e.asteriskNotes }],
               seen := st.seen ++ [((date, wt), st.results.length)] }, true) := by
          unfold processEntry
          dsimp only
          rw [if_neg hc, hpd]
          dsimp only
          rw [hls]
        rw [h1]
        dsimp only
        unfold processEntry
        dsimp only
        rw [if_neg hc, hpd]
        dsimp only
        rw [lookupSeen_append_self st.seen (date, wt) st.results.length hls]
        dsimp only
        rw [updateAt_eq_self]
        intro x hx
        rw [List.getElem?_concat_length] at hx
        simp only [Option.some.injEq] at hx
        subst hx
        exact mergeEvent_fresh (extractNoteText e.asteriskNotes) instrs date wt
      · -- repeat sighting merges; merging twice is merging once
        have h1 : processEntry loc startHour wt instrs st e =
            (⟨updateAt st.results idx
                (mergeEvent (extractNoteText e.asteriskNotes) instrs), st.seen⟩,
              false) := by
          unfold processEntry
          dsimp only
          rw [if_neg hc, hpd]
          dsimp only
          rw [hls]
        rw [h1]
        dsimp only
        unfold processEntry
        dsimp only
        rw [if_neg hc, hpd]
        dsimp only
        rw [hls]
        dsimp only
        rw [updateAt_updateAt]
        have hfn : (fun x => mergeEvent (extractNoteText e.asteriskNotes) instrs
            (mergeEvent (extractNoteText e.asteriskNotes) instrs x)) =
            mergeEvent (extractNoteText e.asteriskNotes) instrs :=
          funext (mergeEvent_idem (extractNoteText e.asteriskNotes) instrs)
        rw [hfn]

theorem processEntry_fill_only (loc : Location) (startHour : Int) (wt : GoStr)
    (instrs : List Instruction) (st : ParseState) (e : Entry) (i : Nat)
    (old new : Collection) (hold : st.results[i]? = some old)
    (hnew : (processEntry loc startHour wt instrs st e).1.results[i]? = some new) :
    new.date = old.date ∧ new.type = old.type ∧
    (old.note ≠ [] → new.note = old.note) ∧
    (old.instructions ≠ [] → new.instructions = old.instructions) ∧
    (new.instructions = old.instructions ∨ new.instructions = instrs) := by
  by_cases hc : (trimSpace e.dayRaw = [] ∨ trimSpace e.monthRaw = [])
  · have h1 : processEntry loc startHour wt instrs st e = (st, false) := by
      unfold processEntry
      dsimp only
      rw [if_pos hc]
    rw [h1] at hnew
    dsimp only at hnew
    rw [hold] at hnew
    simp only [Option.some.injEq] at hnew
    subst hnew
    exact ⟨rfl, rfl, fun _ => rfl, fun _ => rfl, Or.inl rfl⟩
  · rcases hpd : parseDate loc startHour (trimSpace e.dayRaw)
      (trimSpace e.monthRaw) with _ | date
    · have h1 : processEntry loc startHour wt instrs st e = (st, false) := by
        unfold processEntry
        dsimp only
        rw [if_neg hc, hpd]
      rw [h1] at hnew
      dsimp only at hnew
      rw [hold] at hnew
      simp only [Option.some.injEq] at hnew
      subst hnew
      exact ⟨rfl, rfl, fun _ => rfl, fun _ => rfl, Or.inl rfl⟩
    · rcases hls : lookupSeen st.seen (date, wt) with _ | idx
      · have h1 : processEntry loc startHour wt instrs st e =
            ({ results := st.results ++
                [{ date := date, type := wt,
                   instructions := cloneInstructions instrs,
                   note := extractNoteText e.asteriskNotes }],
               seen := st.seen ++ [((date, wt), st.results.length)] }, true) := by
          unfold processEntry
          dsimp only
          rw [if_neg hc, hpd]
          dsimp only
          rw [hls]
        rw [h1] at hnew
        dsimp only at hnew
        have hi : i < st.results.length := by
          by_contra hge
          rw [List.getElem?_eq_none (by omega)] at hold
          exact absurd hold (by simp)
        rw [List.getElem?_append_left hi] at hnew
        rw [hold] at hnew
        simp only [Option.some.injEq] at hnew
        subst hnew
        exact ⟨rfl, rfl, fun _ => rfl, fun _ => rfl, Or.inl rfl⟩
      · have h1 : processEntry loc startHour wt instrs st e =
            (⟨updateAt st.results idx
                (mergeEvent (extractNoteText e.asteriskNotes) instrs), st.seen⟩,
              false) := by
          unfold processEntry
          dsimp only
          rw [if_neg hc, hpd]
          dsimp only
          rw [hls]
        rw [h1] at hnew
        dsimp only at hnew
        by_cases hii : i = idx
        · subst hii
          rw [updateAt_getElem, hold] at hnew
          simp only [Option.map_some', Option.some.injEq] at hnew
          subst hnew
          have hf := mergeEvent_fields (extractNoteText e.asteriskNotes) instrs old
          exact ⟨hf.1, hf.2.1, hf.2.2.1, hf.2.2.2.1, hf.2.2.2.2⟩
        · rw [updateAt_getElem_ne _ _ _ _ hii, hold] at hnew
          simp only [Option.some.injEq] at hnew
          subst hnew
          exact ⟨rfl, rfl, fun _ => rfl, fun _ => rfl, Or.inl rfl⟩

/-- C8: deduplication by the (date-time, stream) key.  (a) Processing the
same date entry a second time is a no-op that adds no event (idempotence);
(b) for every pre-existing index, the event's date and type never change,
a non-empty note and non-empty instructions are never overwritten, and
instructions are only ever replaced wholesale by the candidate list (never
concatenated, so never duplicated); (c) the final event list carries
pairwise-distinct (date-time, stream) keys: exactly one event per key. -/
theorem dedup_key_discipline (loc : Location) (startHour : Int) (wt : GoStr)
    (instrs : List Instruction) (st : ParseState) (e : Entry) :
    (processEntry loc startHour wt instrs
        (processEntry loc startHour wt instrs st e).1 e =
      ((processEntry loc startHour wt instrs st e).1, false)) ∧
    (∀ (i : Nat) (old new : Collection), st.results[i]? = some old →
      (processEntry loc startHour wt instrs st e).1.results[i]? = some new →
      new.date = old.date ∧ new.type = old.type ∧
      (old.note ≠ [] → new.note = old.note) ∧
      (old.instructions ≠ [] → new.instructions = old.instructions) ∧
      (new.instructions = old.instructions ∨ new.instructions = instrs)) ∧
    (∀ doc cs, fetchPipeline loc startHour doc = Except.ok cs →
      (cs.map keyOf).Nodup) := by
  refine ⟨processEntry_idem loc startHour wt instrs st e, ?_, ?_⟩
  · intro i old new hold hnew
    exact processEntry_fill_only loc startHour wt instrs st e i old new hold hnew
  · intro doc cs h
    exact fetchPipeline_keys_nodup loc startHour doc cs h

/-- C8 witness: processing the duplicated garden date of the test fixture
a second time changes nothing, and the success fixture's output keys are
distinct. -/
theorem dedup_key_discipline_witness :
    (processEntry utcLoc 6 (gs "Garden Waste") []
        (processEntry utcLoc 6 (gs "Garden Waste") []
          ⟨[], []⟩ exEntry).1 exEntry =
      ((processEntry utcLoc 6 (gs "Garden Waste") [] ⟨[], []⟩ exEntry).1, false)) ∧
    (([⟨exParsedDate, gs "Refuse", [], []⟩,
       ⟨exParsedDate, gs "Recycling", [], []⟩].map keyOf).Nodup) :=
  ⟨(dedup_key_discipline utcLoc 6 (gs "Garden Waste") [] ⟨[], []⟩ exEntry).1,
   (dedup_key_discipline utcLoc 6 (gs "Garden Waste") [] ⟨[], []⟩ exEntry).2.2
     exDocTwoStreams _ (by decide)⟩

/-! ## String facts for the garden-notice pass -/

theorem ETrim_trimSpace {s : GoStr} (h : ETrim s) : trimSpace s = s := by
  unfold trimSpace
  rw [h.1, h.2, List.reverse_reverse]

theorem dropWhile_eq_self_of_head {p : Char → Bool} {l : GoStr}
    (h : ∀ c, l.head? = some c → p c = false) : l.dropWhile p = l := by
  cases l with
  | nil => rfl
  | cons a t =>
    simp only [List.dropWhile]
    rw [h a rfl]

theorem goFieldsAux_words (s : GoStr) :
    ∀ cur, (∀ c ∈ cur, isGoSpace c = false) →
      ∀ w ∈ goFieldsAux cur s, w ≠ [] ∧ ∀ c ∈ w, isGoSpace c = false := by
  induction s with
  | nil =>
    intro cur hcur w hw
    simp only [goFieldsAux] at hw
    by_cases hc : cur = []
    · rw [if_pos hc] at hw
      simp at hw
    · rw [if_neg hc] at hw
      simp only [List.mem_singleton] at hw
      subst hw
      refine ⟨by simpa using hc, ?_⟩
      intro c hc'
      exact hcur c (List.mem_reverse.mp hc')
  | cons a t ih =>
    intro cur hcur w hw
    simp only [goFieldsAux] at hw
    by_cases ha : isGoSpace a = true
    · rw [if_pos ha] at hw
      by_cases hc : cur = []
      · rw [if_pos hc] at hw
        exact ih [] (by simp) w hw
      · rw [if_neg hc] at hw
        rcases List.mem_cons.mp hw with rfl | hw'
        · refine ⟨by simpa using hc, ?_⟩
          intro c hc'
          exact hcur c (List.mem_reverse.mp hc')
        · exact ih [] (by simp) w hw'
    · rw [if_neg ha] at hw
      refine ih (a :: cur) ?_ w hw
      intro c hc'
      rcases List.mem_cons.mp hc' with rfl | hc''
      · simpa using ha
      · exact hcur c hc''

theorem joinSpace_chars (ws : List GoStr) :
    ∀ c ∈ joinSpace ws, (∃ w ∈ ws, c ∈ w) ∨ c = ' ' := by
  induction ws with
  | nil => intro c hc; simp [joinSpace] at hc
  | cons w rest ih =>
    intro c hc
    cases rest with
    | nil =>
      simp only [joinSpace] at hc
      exact Or.inl ⟨w, by simp, hc⟩
    | cons w' rest' =>
      simp only [joinSpace] at hc
      rcases List.mem_append.mp hc with hm | hm
      · exact Or.inl ⟨w, by simp, hm⟩
      · rcases List.mem_cons.mp hm with rfl | hm'
        · exact Or.inr rfl
        · rcases ih c hm' with ⟨w'', hw'', hc''⟩ | hsp
          · exact Or.inl ⟨w'', List.mem_cons_of_mem _ hw'', hc''⟩
          · exact Or.inr hsp

theorem joinSpace_ne_nil {ws : List GoStr} {w : GoStr}
    (hw : w ∈ ws) (hne : w ≠ []) : joinSpace ws ≠ [] := by
  induction ws with
  | nil => simp at hw
  | cons w0 rest ih =>
    cases rest with
    | nil =>
      simp only [List.mem_singleton] at hw
      subst hw
      simpa [joinSpace] using hne
    | cons w1 rest' =>
      simp only [joinSpace]
      rcases List.mem_cons.mp hw with rfl | _
      · cases w with
        | nil => exact absurd rfl hne
        | cons c t => simp
      · cases w0 with
        | nil => simp
        | cons c t => simp

theorem dropWhile_length_le (p : Char → Bool) (l : GoStr) :
    (l.dropWhile p).length ≤ l.length := by
  induction l with
  | nil => simp
  | cons a t ih =>
    rw [List.dropWhile_cons]
    by_cases hp : p a = true
    · rw [if_pos hp]
      exact ih.trans (Nat.le_succ _)
    · rw [if_neg hp]

theorem head_nonspace_of_dropWhile_self {l : GoStr}
    (h : l.dropWhile isGoSpace = l) :
    ∀ c, l.head? = some c → isGoSpace c = false := by
  intro c hc
  cases l with
  | nil => simp at hc
  | cons a t =>
    have ha : isGoSpace a = false := by
      by_contra hb
      have hsp : isGoSpace a = true := by simpa using hb
      rw [List.dropWhile_cons, if_pos hsp] at h
      have hlen := dropWhile_length_le isGoSpace t
      rw [h] at hlen
      simp at hlen
    simp only [List.head?_cons, Option.some.injEq] at hc
    rw [← hc]
    exact ha

theorem head_append_left {l r : GoStr} (h : l ≠ []) :
    (l ++ r).head? = l.head? := by
  cases l with
  | nil => exact absurd rfl h
  | cons a t => simp

theorem joinSpace_ETrim (ws : List GoStr) :
    (∀ w ∈ ws, w ≠ [] ∧ ETrim w) → ETrim (joinSpace ws) := by
  induction ws with
  | nil => intro _; exact ⟨rfl, rfl⟩
  | cons w rest ih =>
    intro h
    cases rest with
    | nil =>
      simpa [joinSpace] using (h w (by simp)).2
    | cons w1 rest' =>
      have hw := h w (by simp)
      have hrest : ∀ x ∈ w1 :: rest', x ≠ [] ∧ ETrim x := fun x hx =>
        h x (List.mem_cons_of_mem _ hx)
      have hjr := ih hrest
      have hjne : joinSpace (w1 :: rest') ≠ [] :=
        joinSpace_ne_nil (List.mem_cons_self w1 rest') (hrest w1 (by simp)).1
      have hjoin : joinSpace (w :: w1 :: rest') =
          w ++ ' ' :: joinSpace (w1 :: rest') := rfl
      constructor
      · apply dropWhile_eq_self_of_head
        intro c hc
        rw [hjoin, head_append_left hw.1] at hc
        exact head_nonspace_of_dropWhile_self hw.2.1 c hc
      · apply dropWhile_eq_self_of_head
        intro c hc
        rw [hjoin, List.reverse_append, List.reverse_cons, List.append_assoc,
          head_append_left (by simpa using hjne)] at hc
        exact head_nonspace_of_dropWhile_self hjr.2 c hc

theorem head?_mem {α : Type} {l : List α} {a : α} (h : l.head? = some a) :
    a ∈ l := by
  cases l with
  | nil => simp at h
  | cons b t =>
    simp only [List.head?_cons, Option.some.injEq] at h
    rw [← h]
    exact List.mem_cons_self _ _

theorem ETrim_of_nonspace {w : GoStr} (h : ∀ c ∈ w, isGoSpace c = false) :
    ETrim w := by
  constructor
  · exact dropWhile_eq_self_of_head fun c hc => h c (head?_mem hc)
  · exact dropWhile_eq_self_of_head fun c hc =>
      h c (List.mem_reverse.mp (head?_mem hc))

theorem goFields_words (s : GoStr) :
    ∀ w ∈ goFields s, w ≠ [] ∧ ∀ c ∈ w, isGoSpace c = false :=
  goFieldsAux_words s [] (by simp)

theorem ETrim_normalizeSpaces (s : GoStr) : ETrim (normalizeSpaces s) := by
  apply joinSpace_ETrim
  intro w hw
  have h := goFields_words s w hw
  exact ⟨h.1, ETrim_of_nonspace h.2⟩

theorem newline_not_mem_joinSpace {ws : List GoStr}
    (h : ∀ w ∈ ws, '\n' ∉ w) : '\n' ∉ joinSpace ws := by
  intro hm
  rcases joinSpace_chars ws _ hm with ⟨w, hw, hc⟩ | hsp
  · exact h w hw hc
  · exact absurd hsp (by decide)

theorem newline_not_mem_normalizeSpaces (s : GoStr) :
    '\n' ∉ normalizeSpaces s := by
  apply newline_not_mem_joinSpace
  intro w hw hc
  have := (goFields_words s w hw).2 '\n' hc
  simp [isGoSpace] at this

theorem goodNote_nil : GoodNote [] := ⟨⟨rfl, rfl⟩, by simp⟩

theorem goodNote_normalizeSpaces (s : GoStr) : GoodNote (normalizeSpaces s) :=
  ⟨ETrim_normalizeSpaces s, newline_not_mem_normalizeSpaces s⟩

theorem goodNote_extractNoteText (notes : List NoteNode) :
    GoodNote (extractNoteText notes) := by
  unfold extractNoteText
  have hp : ∀ (n : NoteNode) (w : GoStr),
      (if n.isDaySel then none
       else if n.isMonthSel then none
       else if goContains n.classAttr (gs "collection-day") ||
           goContains n.classAttr (gs "collection-month") then none
       else
         let t := normalizeSpaces n.text
         if t = [] then none else some t) = some w →
      w ≠ [] ∧ ETrim w ∧ '\n' ∉ w := by
    intro n w hn
    split at hn
    · exact Option.noConfusion hn
    split at hn
    · exact Option.noConfusion hn
    split at hn
    · exact Option.noConfusion hn
    dsimp only at hn
    split at hn
    · exact Option.noConfusion hn
    · rename_i hne
      have hw : normalizeSpaces n.text = w := by
        simpa using hn
      rw [← hw]
      exact ⟨hne, ETrim_normalizeSpaces _, newline_not_mem_normalizeSpaces _⟩
  constructor
  · apply joinSpace_ETrim
    intro w hw
    simp only [List.mem_filterMap] at hw
    rcases hw with ⟨n, _, hn⟩
    exact ⟨(hp n w hn).1, (hp n w hn).2.1⟩
  · apply newline_not_mem_joinSpace
    intro w hw
    simp only [List.mem_filterMap] at hw
    rcases hw with ⟨n, _, hn⟩
    exact (hp n w hn).2.2

theorem goodNote_trimSpace_eq {s : GoStr} (h : GoodNote s) : trimSpace s = s :=
  ETrim_trimSpace h.1

theorem isPrefixOf_length_le {b s : GoStr} (h : b.isPrefixOf s = true) :
    b.length ≤ s.length :=
  (List.isPrefixOf_iff_prefix.mp h).length_le

theorem occCount_eq_zero_of_lt {b : GoStr} :
    ∀ {s : GoStr}, s.length < b.length → occCount s b = 0 := by
  intro s
  induction s with
  | nil =>
    intro h
    cases b with
    | nil => simp at h
    | cons c b' => simp [occCount, List.isPrefixOf]
  | cons a t ih =>
    intro h
    simp only [occCount]
    rw [if_neg, ih (by simp only [List.length_cons] at h; omega)]
    intro hpre
    have hble := isPrefixOf_length_le hpre
    simp only [List.length_cons] at h hble
    omega

theorem occCount_self {b : GoStr} (h : b ≠ []) : occCount b b = 1 := by
  cases b with
  | nil => exact absurd rfl h
  | cons c b' =>
    simp only [occCount]
    rw [if_pos (List.isPrefixOf_iff_prefix.mpr (List.prefix_refl _)),
      occCount_eq_zero_of_lt (by simp)]

theorem isPrefixOf_append_newline {b : GoStr} (hnl : '\n' ∉ b) :
    ∀ (a r : GoStr), b.isPrefixOf (a ++ '\n' :: r) = b.isPrefixOf a := by
  induction b with
  | nil => intro a r; cases a <;> simp [List.isPrefixOf]
  | cons c bt ih =>
    intro a r
    cases a with
    | nil =>
      simp only [List.nil_append, List.isPrefixOf]
      have hc : ¬(c = '\n') := fun he => hnl (he ▸ List.mem_cons_self _ _)
      have : (c == '\n') = false := by simpa using fun he => hc he
      rw [this]
      simp
    | cons x at' =>
      simp only [List.cons_append, List.isPrefixOf, List.append_eq]
      rw [ih (fun hm => hnl (List.mem_cons_of_mem _ hm)) at' r]

theorem occCount_nil {b : GoStr} (h : b ≠ []) : occCount [] b = 0 := by
  cases b with
  | nil => exact absurd rfl h
  | cons c b' => simp [occCount, List.isPrefixOf]

theorem occCount_append_newline {b : GoStr} (hnl : '\n' ∉ b) (hne : b ≠ []) :
    ∀ a : GoStr, occCount (a ++ '\n' :: b) b = occCount a b + 1 := by
  intro a
  induction a with
  | nil =>
    rw [show ([] : GoStr) ++ '\n' :: b = '\n' :: b from rfl,
      show occCount ('\n' :: b) b =
        ((if b.isPrefixOf ('\n' :: b) then 1 else 0) + occCount b b) from rfl]
    rw [if_neg, occCount_self hne, occCount_nil hne]
    intro hpre
    cases b with
    | nil => exact hne rfl
    | cons c bt =>
      simp only [List.isPrefixOf, Bool.and_eq_true, beq_iff_eq] at hpre
      exact hnl (hpre.1 ▸ List.mem_cons_self _ _)
  | cons x t ih =>
    have hsplit : (x :: t) ++ '\n' :: b = x :: (t ++ '\n' :: b) := rfl
    rw [hsplit]
    simp only [occCount]
    rw [ih]
    have hpre : b.isPrefixOf (x :: (t ++ '\n' :: b)) = b.isPrefixOf (x :: t) :=
      isPrefixOf_append_newline hnl (x :: t) b
    rw [hpre]
    omega

theorem goContains_iff {b : GoStr} :
    ∀ {s : GoStr}, goContains s b = true ↔ 0 < occCount s b := by
  intro s
  induction s with
  | nil =>
    rw [show goContains [] b = (if b.isPrefixOf [] then true else false) from rfl,
      show occCount [] b = ((if b.isPrefixOf [] then 1 else 0) + 0) from rfl]
    split <;> simp
  | cons a t ih =>
    rw [show goContains (a :: t) b =
        (if b.isPrefixOf (a :: t) then true else goContains t b) from rfl,
      show occCount (a :: t) b =
        ((if b.isPrefixOf (a :: t) then 1 else 0) + occCount t b) from rfl]
    split
    · simp
    · simpa using ih

theorem appendNote_count {old notice : GoStr}
    (hold : trimSpace old = old)
    (hg : GoodNote notice) (hne : notice ≠ []) :
    goContains (appendNote old notice) notice = true ∧
    (goContains old notice = false →
      occCount (appendNote old notice) notice = 1) := by
  have ht : trimSpace notice = notice := ETrim_trimSpace hg.1
  unfold appendNote
  dsimp only
  rw [hold, ht, if_neg hne]
  by_cases ho : old = []
  · rw [if_pos ho]
    refine ⟨goContains_iff.mpr (by rw [occCount_self hne]; omega), ?_⟩
    intro _
    exact occCount_self hne
  · rw [if_neg ho]
    by_cases hc : goContains old notice = true
    · rw [if_pos hc]
      exact ⟨hc, fun hf => absurd hc (by simp [hf])⟩
    · rw [if_neg hc]
      have hc' : goContains old notice = false := by simpa using hc
      have hcount : occCount (old ++ '\n' :: notice) notice =
          occCount old notice + 1 := occCount_append_newline hg.2 hne old
      constructor
      · exact goContains_iff.mpr (by rw [hcount]; omega)
      · intro _
        rw [hcount]
        have hz : ¬(0 < occCount old notice) := by
          intro h0
          rw [goContains_iff.mpr h0] at hc'
          exact Bool.noConfusion hc'
        omega

theorem mem_updateAt {α : Type} {l : List α} {f : α → α} {b : α} :
    ∀ {i : Nat}, b ∈ updateAt l i f → b ∈ l ∨ ∃ a ∈ l, b = f a := by
  induction l with
  | nil => intro i hb; simp [updateAt] at hb
  | cons x t ih =>
    intro i hb
    cases i with
    | zero =>
      rw [show updateAt (x :: t) 0 f = f x :: t from rfl] at hb
      rcases List.mem_cons.mp hb with rfl | hm
      · exact Or.inr ⟨x, List.mem_cons_self _ _, rfl⟩
      · exact Or.inl (List.mem_cons_of_mem _ hm)
    | succ n =>
      rw [show updateAt (x :: t) (n + 1) f = x :: updateAt t n f from rfl] at hb
      rcases List.mem_cons.mp hb with rfl | hm
      · exact Or.inl (List.mem_cons_self _ _)
      · rcases ih hm with h1 | ⟨a, ha, hf⟩
        · exact Or.inl (List.mem_cons_of_mem _ h1)
        · exact Or.inr ⟨a, List.mem_cons_of_mem _ ha, hf⟩

theorem mergeEvent_note_cases (note : GoStr) (instrs : List Instruction)
    (old : Collection) :
    (mergeEvent note instrs old).note = old.note ∨
    (mergeEvent note instrs old).note = note := by
  unfold mergeEvent cloneInstructions
  dsimp only
  split_ifs <;> first | exact Or.inl rfl | exact Or.inr rfl

theorem processEntry_notesGood (loc : Location) (startHour : Int) (wt : GoStr)
    (instrs : List Instruction) (st : ParseState) (e : Entry)
    (h : NotesGood st) : NotesGood (processEntry loc startHour wt instrs st e).1 := by
  unfold processEntry
  dsimp only
  split
  · exact h
  · split
    · exact h
    · split
      · intro c hc
        dsimp only at hc
        rcases mem_updateAt hc with hm | ⟨a, ha, hf⟩
        · exact h c hm
        · rw [hf]
          rcases mergeEvent_note_cases (extractNoteText e.asteriskNotes) instrs a
            with h1 | h2
          · rw [h1]; exact h a ha
          · rw [h2]; exact goodNote_extractNoteText _
      · intro c hc
        dsimp only at hc
        rcases List.mem_append.mp hc with hm | hm
        · exact h c hm
        · simp only [List.mem_singleton] at hm
          rw [hm]
          exact goodNote_extractNoteText _

theorem processEntry_typesProp (P : GoStr → Prop) (loc : Location)
    (startHour : Int) (wt : GoStr) (instrs : List Instruction)
    (st : ParseState) (e : Entry) (hwt : P wt)
    (h : ∀ c ∈ st.results, P c.type) :
    ∀ c ∈ (processEntry loc startHour wt instrs st e).1.results, P c.type := by
  unfold processEntry
  dsimp only
  split
  · exact h
  · split
    · exact h
    · split
      · intro c hc
        dsimp only at hc
        rcases mem_updateAt hc with hm | ⟨a, ha, hf⟩
        · exact h c hm
        · rw [hf, (mergeEvent_fields _ _ a).2.1]
          exact h a ha
      · intro c hc
        dsimp only at hc
        rcases List.mem_append.mp hc with hm | hm
        · exact h c hm
        · simp only [List.mem_singleton] at hm
          rw [hm]
          exact hwt

theorem pState_notesGood (loc : Location) (startHour : Int) (wt : GoStr)
    (instrs : List Instruction) (entries : List Entry) :
    ∀ st, NotesGood st →
      NotesGood (pState loc startHour wt instrs st entries) := by
  induction entries with
  | nil => intro st h; exact h
  | cons e rest ih =>
    intro st h
    exact ih _ (processEntry_notesGood loc startHour wt instrs st e h)

theorem pState_typesProp (P : GoStr → Prop) (loc : Location) (startHour : Int)
    (wt : GoStr) (instrs : List Instruction) (entries : List Entry)
    (hwt : P wt) :
    ∀ st, (∀ c ∈ st.results, P c.type) →
      ∀ c ∈ (pState loc startHour wt instrs st entries).results, P c.type := by
  induction entries with
  | nil => intro st h; exact h
  | cons e rest ih =>
    intro st h
    exact ih _ (processEntry_typesProp P loc startHour wt instrs st e hwt h)

theorem processBlock_notesGood (loc : Location) (startHour : Int)
    (doc : Document) (acc : ParseState × GoStr) (sid : StreamId)
    (h : NotesGood acc.1) :
    NotesGood (processBlock loc startHour doc acc sid).1 := by
  rw [processBlock_fst]
  split
  · exact pState_notesGood loc startHour _ _ _ acc.1 h
  · exact h

theorem processBlock_typesProp (P : GoStr → Prop) (loc : Location)
    (startHour : Int) (doc : Document) (acc : ParseState × GoStr)
    (sid : StreamId) (hwt : P (wasteTypeOf sid))
    (h : ∀ c ∈ acc.1.results, P c.type) :
    ∀ c ∈ (processBlock loc startHour doc acc sid).1.results, P c.type := by
  rw [processBlock_fst]
  split
  · exact pState_typesProp P loc startHour _ _ _ hwt acc.1 h
  · exact h

theorem parsePhase1_notesGood (loc : Location) (startHour : Int)
    (doc : Document) : NotesGood (parsePhase1 loc startHour doc).1 := by
  unfold parsePhase1 defsOrder
  simp only [List.foldl_cons, List.foldl_nil]
  apply processBlock_notesGood
  apply processBlock_notesGood
  apply processBlock_notesGood
  apply processBlock_notesGood
  intro c hc
  exact absurd hc (List.not_mem_nil c)

theorem parsePhase1_no_garden_type (loc : Location) (startHour : Int)
    (doc : Document) (hz : blockCount loc startHour doc .garden = 0) :
    ∀ c ∈ (parsePhase1 loc startHour doc).1.results,
      c.type ≠ gs "Garden Waste" := by
  unfold parsePhase1 defsOrder
  simp only [List.foldl_cons, List.foldl_nil]
  refine processBlock_typesProp (fun t => t ≠ gs "Garden Waste") loc startHour
    doc _ .food (by decide) ?_
  intro c hc
  rw [processBlock_zero loc startHour doc _ .garden hz] at hc
  exact processBlock_typesProp (fun t => t ≠ gs "Garden Waste") loc startHour
    doc _ .recycle (by decide)
    (processBlock_typesProp (fun t => t ≠ gs "Garden Waste") loc startHour
      doc _ .refuse (by decide)
      (fun c0 hc0 => absurd hc0 (List.not_mem_nil c0))) c hc

theorem entriesStep_invalid (loc : Location) (startHour : Int) (wt : GoStr)
    (instrs : List Instruction) (st : ParseState) (n : Nat) (e : Entry)
    (h : entryValid loc startHour e = false) :
    entriesStep loc startHour wt instrs (st, n) e = (st, n) := by
  unfold entriesStep
  dsimp only
  rw [processEntry_invalid loc startHour wt instrs st e h]
  rfl

theorem entriesStepAux_added (loc : Location) (startHour : Int) (wt : GoStr)
    (instrs : List Instruction) :
    ∀ (entries : List Entry),
      (∀ e ∈ entries, entryValid loc startHour e = false) →
      ∀ (st : ParseState) (n : Nat),
        (entries.foldl (entriesStep loc startHour wt instrs) (st, n)).2 = n := by
  intro entries
  induction entries with
  | nil => intro _ st n; rfl
  | cons e rest ih =>
    intro h st n
    rw [List.foldl_cons,
      entriesStep_invalid loc startHour wt instrs st n e
        (h e (List.mem_cons_self _ _))]
    exact ih (fun e' he' => h e' (List.mem_cons_of_mem _ he')) st n

theorem processEntries_added_zero (loc : Location) (startHour : Int)
    (wt : GoStr) (instrs : List Instruction) (st : ParseState)
    (entries : List Entry)
    (h : ∀ e ∈ entries, entryValid loc startHour e = false) :
    (processEntries loc startHour wt instrs st entries).2 = 0 := by
  show (entries.foldl (entriesStep loc startHour wt instrs) (st, 0)).2 = 0
  exact entriesStepAux_added loc startHour wt instrs entries h st 0

theorem processBlock_snd_ne_garden (loc : Location) (startHour : Int)
    (doc : Document) (acc : ParseState × GoStr) (sid : StreamId)
    (h : sid ≠ .garden) :
    (processBlock loc startHour doc acc sid).2 = acc.2 := by
  unfold processBlock
  dsimp only
  split
  · rfl
  · split
    · rename_i hcond
      exact absurd hcond.1 h
    · rfl

theorem processBlock_snd_garden (loc : Location) (startHour : Int)
    (doc : Document) (acc : ParseState × GoStr)
    (hp : (doc.blockOf .garden).present = true)
    (hz : ∀ e ∈ (doc.blockOf .garden).entries, entryValid loc startHour e = false)
    (hn : extractGardenNotice (doc.blockOf .garden) ≠ []) :
    (processBlock loc startHour doc acc .garden).2 =
      extractGardenNotice (doc.blockOf .garden) := by
  unfold processBlock
  dsimp only
  simp only [hp, Bool.not_true, Bool.false_eq_true, if_false]
  have hadd := processEntries_added_zero loc startHour (wasteTypeOf .garden)
    (doc.blockOf .garden).instructions acc.1 (doc.blockOf .garden).entries hz
  rcases hpe : processEntries loc startHour (wasteTypeOf .garden)
      (doc.blockOf .garden).instructions acc.1 (doc.blockOf .garden).entries
    with ⟨st', added⟩
  rw [hpe] at hadd
  dsimp only at hadd
  rw [if_pos ⟨trivial, hadd, by simpa using hn⟩]
  rfl

theorem parsePhase1_gardenNotice (loc : Location) (startHour : Int)
    (doc : Document)
    (hp : (doc.blockOf .garden).present = true)
    (hz : ∀ e ∈ (doc.blockOf .garden).entries, entryValid loc startHour e = false)
    (hn : extractGardenNotice (doc.blockOf .garden) ≠ []) :
    (parsePhase1 loc startHour doc).2 =
      extractGardenNotice (doc.blockOf .garden) := by
  unfold parsePhase1 defsOrder
  simp only [List.foldl_cons, List.foldl_nil]
  rw [processBlock_snd_ne_garden loc startHour doc _ .food (by decide)]
  exact processBlock_snd_garden loc startHour doc _ hp hz hn

/-- C7 (amended): if the garden-waste container exists with zero dated
entries that parse (so no garden events are added) and a non-empty notice
was captured, then `parseCollections` succeeds with zero garden-waste
events, the notice is appended to every event's note (all events are
non-garden), each final note contains the notice as a substring, and the
notice occurs in a note exactly once whenever that event's phase-1 note did
not already contain it (the append is skipped when it did, so a note that
already embeds the notice keeps its original occurrence count). -/
theorem gardenNotice_propagation (loc : Location) (startHour : Int)
    (doc : Document) (cs : List Collection)
    (hp : (doc.blockOf .garden).present = true)
    (hz : ∀ e ∈ (doc.blockOf .garden).entries, entryValid loc startHour e = false)
    (hn : extractGardenNotice (doc.blockOf .garden) ≠ [])
    (hok : parseCollections loc startHour doc = .ok cs) :
    (∀ c ∈ cs, c.type ≠ gs "Garden Waste") ∧
    (∀ c ∈ cs, goContains c.note (extractGardenNotice (doc.blockOf .garden)) = true) ∧
    (∀ (i : Nat) (c0 c : Collection),
      (parsePhase1 loc startHour doc).1.results[i]? = some c0 →
      cs[i]? = some c →
      c.note = appendNote c0.note (extractGardenNotice (doc.blockOf .garden)) ∧
      (goContains c0.note (extractGardenNotice (doc.blockOf .garden)) = false →
        occCount c.note (extractGardenNotice (doc.blockOf .garden)) = 1)) := by
  have hE : GoodNote (extractGardenNotice (doc.blockOf .garden)) :=
    goodNote_normalizeSpaces _
  have hbc : blockCount loc startHour doc .garden = 0 := by
    unfold blockCount
    dsimp only
    rw [if_pos hp, List.length_eq_zero, List.filter_eq_nil_iff]
    intro e he
    simp [hz e he]
  have hng := parsePhase1_no_garden_type loc startHour doc hbc
  have hgood := parsePhase1_notesGood loc startHour doc
  have hgn := parsePhase1_gardenNotice loc startHour doc hp hz hn
  unfold parseCollections at hok
  rcases hcont : doc.hasContainer with _ | _
  · simp [hcont] at hok
  · simp only [hcont, Bool.not_true, Bool.false_eq_true, if_false] at hok
    rcases hps : parsePhase1 loc startHour doc with ⟨st, gn⟩
    rw [hps] at hok hgn hng hgood
    dsimp only at hok hgn hng hgood ⊢
    simp only [Except.ok.injEq] at hok
    subst hok
    subst hgn
    unfold applyGardenNotice
    rw [if_pos hn]
    refine ⟨?_, ?_, ?_⟩
    · intro c hc
      rcases List.mem_map.mp hc with ⟨c0, hc0, hfc⟩
      rw [← hfc]
      rw [if_neg (hng c0 hc0)]
      exact hng c0 hc0
    · intro c hc
      rcases List.mem_map.mp hc with ⟨c0, hc0, hfc⟩
      rw [← hfc]
      rw [if_neg (hng c0 hc0)]
      exact (appendNote_count (goodNote_trimSpace_eq (hgood c0 hc0)) hE hn).1
    · intro i c0 c h1 h2
      rw [List.getElem?_map, h1] at h2
      simp only [Option.map_some', Option.some.injEq] at h2
      have hc0mem : c0 ∈ st.results := by
        rcases List.getElem?_eq_some.mp h1 with ⟨hlt, heq⟩
        exact heq ▸ List.getElem_mem _
      rw [← h2]
      rw [if_neg (hng c0 hc0mem)]
      exact ⟨rfl, (appendNote_count (goodNote_trimSpace_eq (hgood c0 hc0mem)) hE hn).2⟩

/-- Witness for the garden-notice theorem: the paused document with one
refuse entry. -/
theorem gardenNotice_propagation_witness :
    ((exDocGardenPaused.blockOf .garden).present = true ∧
      (∀ e ∈ (exDocGardenPaused.blockOf .garden).entries,
        entryValid utcLoc 6 e = false) ∧
      extractGardenNotice (exDocGardenPaused.blockOf .garden) ≠ [] ∧
      parseCollections utcLoc 6 exDocGardenPaused =
        .ok [⟨exParsedDate, gs "Refuse", [], gs "PAUSED PAUSED"⟩]) ∧
    ((∀ c ∈ [(⟨exParsedDate, gs "Refuse", [], gs "PAUSED PAUSED"⟩ : Collection)],
        c.type ≠ gs "Garden Waste") ∧
      (∀ c ∈ [(⟨exParsedDate, gs "Refuse", [], gs "PAUSED PAUSED"⟩ : Collection)],
        goContains c.note
          (extractGardenNotice (exDocGardenPaused.blockOf .garden)) = true) ∧
      (∀ (i : Nat) (c0 c : Collection),
        (parsePhase1 utcLoc 6 exDocGardenPaused).1.results[i]? = some c0 →
        [(⟨exParsedDate, gs "Refuse", [], gs "PAUSED PAUSED"⟩ : Collection)][i]? =
          some c →
        c.note = appendNote c0.note
          (extractGardenNotice (exDocGardenPaused.blockOf .garden)) ∧
        (goContains c0.note
            (extractGardenNotice (exDocGardenPaused.blockOf .garden)) = false →
          occCount c.note
            (extractGardenNotice (exDocGardenPaused.blockOf .garden)) = 1))) :=
  ⟨⟨by decide, by decide, by decide, by decide⟩,
   gardenNotice_propagation utcLoc 6 exDocGardenPaused _
     (by decide) (by decide) (by decide) (by decide)⟩
